import Mathlib

/-!
Shallow embedding of the FFT core of the musicVisualization repository.

Two implementations live in the repository:
  * the C++ header fft.hpp: an iterative, lookup-table accelerated
    radix-2 Cooley-Tukey transform (namespace detail, functions fft / ifft);
  * the C file fft.c: a recursive variant with helper fft_helper and
    worker do_fft.

Buffers of std::complex<float_t> (resp. double complex) are modelled as
functions Nat -> C together with an explicit length n (the value of
data.size() / the n argument); element reads data.at(i) become function
application and element writes become Function.update.  Floating point
arithmetic is idealised as exact complex arithmetic, so "within
floating-point tolerance" in the specification becomes equality.
-/

open Complex

/-- Direct bit-by-bit reversal of the low `order` bits of a natural
number, as the specification words it: the least significant bit of `i`
becomes the most significant of the result.  This is the reference
definition that the lookup-table implementation is compared against. -/
def bitrev : Nat → Nat → Nat
  | 0, _ => 0
  | k + 1, i => bitrev k (i / 2) + (i % 2) * 2 ^ k

namespace detail

/-- Table from fft.hpp, generated by make_bit_rev_lut.py: entry b is the
reversal of the 8-bit value b. -/
def bit_rev_lut : List Nat :=
  [0x00, 0x80, 0x40, 0xc0, 0x20, 0xa0, 0x60, 0xe0, 0x10, 0x90,
   0x50, 0xd0, 0x30, 0xb0, 0x70, 0xf0, 0x08, 0x88, 0x48, 0xc8,
   0x28, 0xa8, 0x68, 0xe8, 0x18, 0x98, 0x58, 0xd8, 0x38, 0xb8,
   0x78, 0xf8, 0x04, 0x84, 0x44, 0xc4, 0x24, 0xa4, 0x64, 0xe4,
   0x14, 0x94, 0x54, 0xd4, 0x34, 0xb4, 0x74, 0xf4, 0x0c, 0x8c,
   0x4c, 0xcc, 0x2c, 0xac, 0x6c, 0xec, 0x1c, 0x9c, 0x5c, 0xdc,
   0x3c, 0xbc, 0x7c, 0xfc, 0x02, 0x82, 0x42, 0xc2, 0x22, 0xa2,
   0x62, 0xe2, 0x12, 0x92, 0x52, 0xd2, 0x32, 0xb2, 0x72, 0xf2,
   0x0a, 0x8a, 0x4a, 0xca, 0x2a, 0xaa, 0x6a, 0xea, 0x1a, 0x9a,
   0x5a, 0xda, 0x3a, 0xba, 0x7a, 0xfa, 0x06, 0x86, 0x46, 0xc6,
   0x26, 0xa6, 0x66, 0xe6, 0x16, 0x96, 0x56, 0xd6, 0x36, 0xb6,
   0x76, 0xf6, 0x0e, 0x8e, 0x4e, 0xce, 0x2e, 0xae, 0x6e, 0xee,
   0x1e, 0x9e, 0x5e, 0xde, 0x3e, 0xbe, 0x7e, 0xfe, 0x01, 0x81,
   0x41, 0xc1, 0x21, 0xa1, 0x61, 0xe1, 0x11, 0x91, 0x51, 0xd1,
   0x31, 0xb1, 0x71, 0xf1, 0x09, 0x89, 0x49, 0xc9, 0x29, 0xa9,
   0x69, 0xe9, 0x19, 0x99, 0x59, 0xd9, 0x39, 0xb9, 0x79, 0xf9,
   0x05, 0x85, 0x45, 0xc5, 0x25, 0xa5, 0x65, 0xe5, 0x15, 0x95,
   0x55, 0xd5, 0x35, 0xb5, 0x75, 0xf5, 0x0d, 0x8d, 0x4d, 0xcd,
   0x2d, 0xad, 0x6d, 0xed, 0x1d, 0x9d, 0x5d, 0xdd, 0x3d, 0xbd,
   0x7d, 0xfd, 0x03, 0x83, 0x43, 0xc3, 0x23, 0xa3, 0x63, 0xe3,
   0x13, 0x93, 0x53, 0xd3, 0x33, 0xb3, 0x73, 0xf3, 0x0b, 0x8b,
   0x4b, 0xcb, 0x2b, 0xab, 0x6b, 0xeb, 0x1b, 0x9b, 0x5b, 0xdb,
   0x3b, 0xbb, 0x7b, 0xfb, 0x07, 0x87, 0x47, 0xc7, 0x27, 0xa7,
   0x67, 0xe7, 0x17, 0x97, 0x57, 0xd7, 0x37, 0xb7, 0x77, 0xf7,
   0x0f, 0x8f, 0x4f, 0xcf, 0x2f, 0xaf, 0x6f, 0xef, 0x1f, 0x9f,
   0x5f, 0xdf, 0x3f, 0xbf, 0x7f, 0xff]

/-- Model of detail::bit_reverse_word from fft.hpp.  word is a size_t,
so 8 * sizeof word = 64.  The loop indexes the LUT with the i-th byte of
word and ORs the reversed byte into the mirrored position; the trailing
shift drops the 64 - order low-order-alignment bits. -/
def bit_reverse_word (word : Nat) (order : Nat) : Nat :=
  let reversed :=
    (List.range 8).foldl
      (fun reversed k =>
        let i := 8 * k
        let index := (word &&& 0xff <<< i) >>> i
        let shift := 8 * 8 - (i + 8)
        reversed ||| (bit_rev_lut.getD index 0) <<< shift)
      0
  reversed >>> (8 * 8 - order)

/-- Count of trailing zero bits; helper for modelling __builtin_ffs. -/
def ctz (x : Nat) : Nat :=
  if x = 0 ∨ x % 2 = 1 then 0
  else ctz (x / 2) + 1
decreasing_by
  rename_i h
  rcases Nat.eq_zero_or_pos x with h0 | h0
  · exact absurd (Or.inl h0) h
  · omega

/-- Model of __builtin_ffs as invoked by bit_reverse_sort: the builtin
takes an int, so the size_t argument is first truncated to its low 32
bits (the implementation-defined signed conversion keeps the bit
pattern), then the result is one plus the index of the least
significant set bit of that pattern, or zero if the truncated pattern
is zero.  In particular every size that is a multiple of 2^32 gives 0,
which is the root of the overflow shown in order_overflow_at_2_pow_32. -/
def ffs (x : Nat) : Nat :=
  if x % 2 ^ 32 = 0 then 0 else ctz (x % 2 ^ 32) + 1

/-- Swap of two buffer positions, the effect of std::swap on
data.at(i) and data.at(rev). -/
def swap (data : Nat → ℂ) (i j : Nat) : Nat → ℂ :=
  Function.update (Function.update data i (data j)) j (data i)

/-- Loop body of detail::bit_reverse_sort: for i from 1 to size - 1,
swap positions i and bit_reverse_word(i, order) when the latter is not
smaller. -/
def brs_loop (order size : Nat) (i : Nat) (data : Nat → ℂ) : Nat → ℂ :=
  if i < size then
    let rev := bit_reverse_word i order
    brs_loop order size (i + 1) (if rev ≥ i then swap data i rev else data)
  else data
termination_by size - i

/-- Model of detail::bit_reverse_sort from fft.hpp: sort a buffer of
size elements based on the bitwise reverse representation of its
indices.  The C++ stores __builtin_ffs(size) - 1 into an unsigned
order: the subtraction happens at type int and the store converts to
unsigned, i.e. reduces mod 2^32, so an ffs result of 0 (any size that
is a multiple of 2^32) wraps to order = 4294967295; since ffs is at
most 32, adding 2^32 - 1 and reducing mod 2^32 expresses exactly that
wrapped subtraction. -/
def bit_reverse_sort (size : Nat) (data : Nat → ℂ) : Nat → ℂ :=
  brs_loop ((ffs size + (2 ^ 32 - 1)) % 2 ^ 32) size 1 data

/-- Innermost butterfly loop of detail::fft_impl: for i from start
(passed here as the initial value of i) up to stop = start + grp_size/2,
combine even = data.at(i) and odd = data.at(i + grp_size/2) into
even + odd*w_curr and even - odd*w_curr, stepping w_curr by w_step. -/
def fft_inner (w_step : ℂ) (half : Nat) (i stop : Nat) (w_curr : ℂ)
    (data : Nat → ℂ) : Nat → ℂ :=
  if i < stop then
    let even := data i
    let odd := data (i + half)
    let data :=
      Function.update (Function.update data i (even + odd * w_curr))
        (i + half) (even - odd * w_curr)
    fft_inner w_step half (i + 1) stop (w_curr * w_step) data
  else data
termination_by stop - i

/-- Middle loop of detail::fft_impl over the n / grp_size butterfly
groups of the current stage; each group starts at grp * grp_size and
w_curr restarts at 1. -/
def fft_groups (w_step : ℂ) (grp_size n : Nat) (grp : Nat)
    (data : Nat → ℂ) : Nat → ℂ :=
  if grp < n / grp_size then
    let start := grp * grp_size
    fft_groups w_step grp_size n (grp + 1)
      (fft_inner w_step (grp_size / 2) start (start + grp_size / 2) 1 data)
  else data
termination_by n / grp_size - grp

/-- Outer loop of detail::fft_impl: grp_size doubles from 2 while it is
at most n, and the per-stage twiddle step is w_n^(n/grp_size).  The
source loop starts grp_size at 2, so 0 < grp_size is invariant along
the C++ loop; it appears in the guard only to make the doubling
well-founded for all arguments. -/
def fft_stages (w_n : ℂ) (n : Nat) (grp_size : Nat) (data : Nat → ℂ) :
    Nat → ℂ :=
  if 0 < grp_size ∧ grp_size ≤ n then
    fft_stages w_n n (grp_size * 2)
      (fft_groups (w_n ^ (n / grp_size)) grp_size n 0 data)
  else data
termination_by n + 1 - grp_size
decreasing_by omega

/-- Final normalization loop of detail::fft_impl on the forward
direction: data.at(i) /= n for i from 0 to n - 1. -/
noncomputable def scale_loop (n : Nat) (i : Nat) (data : Nat → ℂ) : Nat → ℂ :=
  if i < n then
    scale_loop n (i + 1) (Function.update data i (data i / (n : ℂ)))
  else data
termination_by n - i

/-- EINVAL from cerrno, the error returned on invalid sizes. -/
def EINVAL : Nat := 22

/-- Model of detail::fft_impl from fft.hpp.  n plays the role of
data.size().  The twiddle base w_n = exp((2 pi (+-1) / n) i) is computed
before the power-of-two check exactly as in the source (it touches no
buffer element); sizes with n & (n-1) != 0 or n < 2 are rejected with
EINVAL and the buffer is returned unmodified.  The pair holds the int
return value and the final buffer contents. -/
noncomputable def fft_impl (forward : Bool) (n : Nat) (data : Nat → ℂ) :
    Nat × (Nat → ℂ) :=
  let w_n : ℂ :=
    Complex.exp (((2 * Real.pi * (if forward then -1 else 1) / (n : ℝ) : ℝ) : ℂ) *
      Complex.I)
  if n &&& (n - 1) ≠ 0 ∨ n < 2 then (EINVAL, data)
  else
    let data := bit_reverse_sort n data
    let data := fft_stages w_n n 2 data
    if forward then (0, scale_loop n 0 data) else (0, data)

end detail

/-- Model of the C++ fft from fft.hpp: forward transform, in place. -/
noncomputable def fft (n : Nat) (data : Nat → ℂ) : Nat × (Nat → ℂ) :=
  detail.fft_impl true n data

/-- Model of the C++ ifft from fft.hpp: inverse transform, in place. -/
noncomputable def ifft (n : Nat) (data : Nat → ℂ) : Nat × (Nat → ℂ) :=
  detail.fft_impl false n data

namespace fftc

/-- EINVAL from errno.h, as used by fft.c. -/
def EINVAL : Nat := 22

/-- Combine loop of do_fft in fft.c: for (i = 0; i < n*stride; i +=
stride, mult *= w_n) data[i] = even[i*2] + mult*odd[i*2], where even is
the buffer at offset base and odd at offset base + stride.  Each write
lands in the running buffer before the next read, as in C.  The loop
variable steps by stride; 0 < stride (always true at the call site,
where stride starts at 1 and doubles) appears in the guard only for
well-foundedness. -/
noncomputable def combine (w_n : ℂ) (base stride stop : Nat) (i : Nat)
    (mult : ℂ) (data : Nat → ℂ) : Nat → ℂ :=
  if 0 < stride ∧ i < stop then
    combine w_n base stride stop (i + stride) (mult * w_n)
      (Function.update data (base + i)
        (data (base + i * 2) + mult * data (base + stride + i * 2)))
  else data
termination_by stop - i
decreasing_by omega

/-- Model of the recursive worker do_fft from fft.c.  The buffer is
global and base is the pointer offset of the data argument.  The C
function recurses on n/2 until n == 1 and therefore never terminates
when n == 0; the fuel argument makes that non-termination observable as
a none result for every fuel value. -/
noncomputable def do_fft : Nat → (Nat → ℂ) → Nat → Nat → Bool → Nat →
    Option (Nat → ℂ)
  | 0, _, _, _, _, _ => none
  | fuel + 1, data, base, n, inv, stride =>
    let w_n : ℂ :=
      Complex.exp ((if inv then 1 else -1 : ℂ) * Complex.I * 2 * Real.pi / (n : ℂ))
    if n = 1 then some data
    else
      match do_fft fuel data base (n / 2) inv (stride * 2) with
      | none => none
      | some d1 =>
        match do_fft fuel d1 (base + stride) (n / 2) inv (stride * 2) with
        | none => none
        | some d2 => some (combine w_n base stride (n * stride) 0 1 d2)

/-- Model of memcpy(out, in, bytes) on buffers of double complex.  One
element is sizeof(double complex) = 16 bytes, so only the first
bytes / 16 whole elements of in reach out; a trailing partial element
(bytes % 16 != 0) would corrupt one further element in C, which this
element-granular model cannot express and which only widens the
divergence recorded against fft_helper. -/
def memcpy_bytes (dst src : Nat → ℂ) (bytes : Nat) : Nat → ℂ :=
  fun p => if p < bytes / 16 then src p else dst p

/-- Normalization loop of fft_helper on the forward direction:
out[i] /= n for i from 0 to n - 1. -/
noncomputable def fhs_loop (n : Nat) (i : Nat) (out : Nat → ℂ) : Nat → ℂ :=
  if i < n then
    fhs_loop n (i + 1) (Function.update out i (out i / (n : ℂ)))
  else out
termination_by n - i

/-- Model of fft_helper from fft.c.  Null pointers are modelled by the
two Bool flags and pointer aliasing of in and out by aliased.  Note the
validation accepts every n with n & (n-1) == 0, including 0 and 1, and
that the source line memcpy(out, in, n) passes a BYTE count of n for an
n-ELEMENT array.  The n == 0 case then never returns (do_fft recurses
forever), hence the fuel and the Option result. -/
noncomputable def fft_helper (fuel : Nat) (in_null out_null : Bool)
    (inBuf outBuf : Nat → ℂ) (aliased : Bool) (n : Nat) (inverse : Bool) :
    Option (Nat × (Nat → ℂ)) :=
  if in_null ∨ out_null ∨ n &&& (n - 1) ≠ 0 then some (EINVAL, outBuf)
  else
    let out1 := if aliased then inBuf else memcpy_bytes outBuf inBuf n
    match do_fft fuel out1 0 n inverse 1 with
    | none => none
    | some out2 =>
      if ¬inverse then some (0, fhs_loop n 0 out2) else some (0, out2)

/-- Model of fft from fft.c: forward transform through fft_helper. -/
noncomputable def fft (fuel : Nat) (in_null out_null : Bool)
    (inBuf outBuf : Nat → ℂ) (aliased : Bool) (n : Nat) :
    Option (Nat × (Nat → ℂ)) :=
  fft_helper fuel in_null out_null inBuf outBuf aliased n false

/-- Model of ifft from fft.c: inverse transform through fft_helper. -/
noncomputable def ifft (fuel : Nat) (in_null out_null : Bool)
    (inBuf outBuf : Nat → ℂ) (aliased : Bool) (n : Nat) :
    Option (Nat × (Nat → ℂ)) :=
  fft_helper fuel in_null out_null inBuf outBuf aliased n true

end fftc

/-- Invariant of the stage loop: after the stages with group sizes up
to 2^s, each contiguous block of 2^s buffer entries holds the twiddle
transform (with base w^(2^o/2^s)) of the stride-decimated subsequence
of the original input x selected by the bit-reversed group number. -/
def StageInv (w : ℂ) (o s : Nat) (x d : Nat → ℂ) : Prop :=
  ∀ q t, q < 2 ^ o / 2 ^ s → t < 2 ^ s →
    d (q * 2 ^ s + t) =
      ∑ j ∈ Finset.range (2 ^ s),
        x (bitrev (o - s) q + j * (2 ^ o / 2 ^ s)) * (w ^ (2 ^ o / 2 ^ s)) ^ (j * t)

/-! ### Arithmetic facts about the direct bit reversal -/

lemma bitrev_succ (k i : Nat) :
    bitrev (k + 1) i = bitrev k (i / 2) + (i % 2) * 2 ^ k := rfl

lemma bitrev_lt (k : Nat) : ∀ i, bitrev k i < 2 ^ k := by
  induction k with
  | zero => intro i; simp [bitrev]
  | succ k ih =>
    intro i
    have h1 := ih (i / 2)
    have h2 : i % 2 ≤ 1 := by omega
    have h3 : i % 2 * 2 ^ k ≤ 2 ^ k := by
      calc i % 2 * 2 ^ k ≤ 1 * 2 ^ k := Nat.mul_le_mul_right _ h2
        _ = 2 ^ k := one_mul _
    have h4 : 2 ^ (k + 1) = 2 ^ k + 2 ^ k := by rw [pow_succ]; omega
    rw [bitrev_succ]
    omega

lemma bitrev_zero_input (k : Nat) : bitrev k 0 = 0 := by
  induction k with
  | zero => rfl
  | succ k ih => rw [bitrev_succ]; simp [ih]

lemma bitrev_split (b : Nat) (a : Nat) :
    ∀ x y, x < 2 ^ a →
      bitrev (a + b) (x + 2 ^ a * y) = bitrev b y + 2 ^ b * bitrev a x := by
  induction a with
  | zero =>
    intro x y hx
    have hx0 : x = 0 := by omega
    subst hx0
    simp [bitrev_zero_input, bitrev]
  | succ a ih =>
    intro x y hx
    have hstep : a + 1 + b = (a + b) + 1 := by omega
    rw [hstep, bitrev_succ]
    have hdiv : (x + 2 ^ (a + 1) * y) / 2 = x / 2 + 2 ^ a * y := by
      have h2 : 2 ^ (a + 1) * y = 2 * (2 ^ a * y) := by ring
      rw [h2, Nat.add_mul_div_left _ _ (by norm_num : 0 < 2)]
    have hmod : (x + 2 ^ (a + 1) * y) % 2 = x % 2 := by
      have h2 : 2 ^ (a + 1) * y = 2 ^ a * y * 2 := by ring
      rw [h2, Nat.add_mul_mod_self_right]
    rw [hdiv, hmod, ih (x / 2) y (by omega)]
    rw [bitrev_succ]
    ring

lemma bitrev_double (k q : Nat) : bitrev (k + 1) (2 * q) = bitrev k q := by
  rw [bitrev_succ]
  simp [Nat.mul_div_cancel_left, Nat.mul_mod_right]

lemma bitrev_double_succ (k q : Nat) :
    bitrev (k + 1) (2 * q + 1) = bitrev k q + 2 ^ k := by
  rw [bitrev_succ]
  have h1 : (2 * q + 1) / 2 = q := by omega
  have h2 : (2 * q + 1) % 2 = 1 := by omega
  rw [h1, h2, one_mul]

lemma bitrev_bitrev (k : Nat) : ∀ i, i < 2 ^ k → bitrev k (bitrev k i) = i := by
  induction k with
  | zero =>
    intro i hi
    have : i = 0 := by omega
    simp [this, bitrev]
  | succ k ih =>
    intro i hi
    have hB : bitrev k (i / 2) < 2 ^ k := bitrev_lt k _
    have hin : bitrev (k + 1) i = bitrev k (i / 2) + 2 ^ k * (i % 2) := by
      rw [bitrev_succ]; ring
    rw [hin]
    have hsplit := bitrev_split 1 k (bitrev k (i / 2)) (i % 2) hB
    rw [hsplit]
    have h1 : bitrev 1 (i % 2) = i % 2 := by
      have : i % 2 = 0 ∨ i % 2 = 1 := by omega
      rcases this with h | h <;> simp [h, bitrev]
    rw [h1, ih (i / 2) (by omega)]
    have : (2 : Nat) ^ 1 = 2 := by norm_num
    rw [this]
    omega

lemma bitrev_all_ones (k : Nat) : bitrev k (2 ^ k - 1) = 2 ^ k - 1 := by
  induction k with
  | zero => rfl
  | succ k ih =>
    have hp : 2 ^ (k + 1) = 2 * 2 ^ k := by rw [pow_succ]; ring
    have hpos : 0 < 2 ^ k := Nat.two_pow_pos k
    have hdiv : (2 ^ (k + 1) - 1) / 2 = 2 ^ k - 1 := by omega
    have hmod : (2 ^ (k + 1) - 1) % 2 = 1 := by omega
    rw [bitrev_succ, hdiv, hmod, ih, one_mul]
    omega

/-! ### The lookup-table bit reversal agrees with the direct reversal -/

set_option maxRecDepth 10000 in
lemma lut_getD : ∀ b, b < 256 → detail.bit_rev_lut[b]?.getD 0 = bitrev 8 b := by decide

lemma index_byte (w s : Nat) : (w &&& 0xff <<< s) >>> s = w / 2 ^ s % 256 := by
  have h1 : (w &&& 0xff <<< s) >>> s = (w >>> s) &&& 0xff := by
    apply Nat.eq_of_testBit_eq
    intro j
    simp [Nat.testBit_and, Nat.testBit_shiftRight, Nat.testBit_shiftLeft,
      Nat.add_sub_cancel_left, Nat.le_add_right]
  rw [h1]
  have h2 : (0xff : Nat) = 2 ^ 8 - 1 := by norm_num
  rw [h2, Nat.and_pow_two_sub_one_eq_mod, Nat.shiftRight_eq_div_pow]

lemma or_step (c : Nat) (hc : c < 2 ^ 8) (m m8 : Nat) (hm : m8 = m + 8) (a : Nat) :
    (2 ^ m8 * a) ||| (c <<< m) = 2 ^ m * (a * 2 ^ 8 + c) := by
  subst hm
  have hb : c <<< m < 2 ^ (m + 8) := by
    rw [Nat.shiftLeft_eq]
    calc c * 2 ^ m < 2 ^ 8 * 2 ^ m := (Nat.mul_lt_mul_right (Nat.two_pow_pos m)).mpr hc
      _ = 2 ^ (m + 8) := by rw [← pow_add]; ring_nf
  rw [← Nat.mul_add_lt_is_or hb a, Nat.shiftLeft_eq]
  ring

lemma bitrev_byte_step (t u : Nat) :
    bitrev (8 + t) u = bitrev t (u / 256) + 2 ^ t * bitrev 8 (u % 256) := by
  have h8 : (256 : Nat) = 2 ^ 8 := by norm_num
  have hx : u % 256 < 2 ^ 8 := by rw [← h8]; exact Nat.mod_lt _ (by norm_num)
  have h := bitrev_split t 8 (u % 256) (u / 256) hx
  rw [← h8] at h
  rw [Nat.mod_add_div] at h
  exact h

lemma brw_eq_bitrev (order : Nat) (ho : order ≤ 64) (w : Nat) (hw : w < 2 ^ order) :
    detail.bit_reverse_word w order = bitrev order w := by
  have hw64 : w < 2 ^ 64 := lt_of_lt_of_le hw (Nat.pow_le_pow_right (by norm_num) ho)
  have hrange : List.range 8 = [0, 1, 2, 3, 4, 5, 6, 7] := by rfl
  simp only [detail.bit_reverse_word, hrange, List.foldl_cons, List.foldl_nil]
  norm_num
  have e0 : w &&& 255 = w / 2 ^ 0 % 256 := by
    have h2 : (255 : Nat) = 2 ^ 8 - 1 := by norm_num
    rw [h2, Nat.and_pow_two_sub_one_eq_mod]
    norm_num
  rw [e0, index_byte w 8, index_byte w 16, index_byte w 24, index_byte w 32,
    index_byte w 40, index_byte w 48, index_byte w 56]
  have hmlt : ∀ s : Nat, w / 2 ^ s % 256 < 256 := fun s => Nat.mod_lt _ (by norm_num)
  rw [lut_getD _ (hmlt 0), lut_getD _ (hmlt 8), lut_getD _ (hmlt 16),
    lut_getD _ (hmlt 24), lut_getD _ (hmlt 32), lut_getD _ (hmlt 40),
    lut_getD _ (hmlt 48), lut_getD _ (hmlt 56)]
  have hblt : ∀ s : Nat, bitrev 8 (w / 2 ^ s % 256) < 2 ^ 8 := fun s => bitrev_lt 8 _
  have t0 : bitrev 8 (w / 2 ^ 0 % 256) <<< 56 = 2 ^ 56 * bitrev 8 (w / 2 ^ 0 % 256) := by
    rw [Nat.shiftLeft_eq]; ring
  rw [t0]
  rw [or_step _ (hblt 8) 48 56 (by norm_num) _]
  rw [or_step _ (hblt 16) 40 48 (by norm_num) _]
  rw [or_step _ (hblt 24) 32 40 (by norm_num) _]
  rw [or_step _ (hblt 32) 24 32 (by norm_num) _]
  rw [or_step _ (hblt 40) 16 24 (by norm_num) _]
  rw [or_step _ (hblt 48) 8 16 (by norm_num) _]
  rw [← Nat.mul_add_lt_is_or (hblt 56) _]

  rw [pow_zero, Nat.div_one]
  -- byte decomposition of bitrev 64 w
  have B0 := bitrev_byte_step 56 w
  rw [show (8 + 56 : Nat) = 64 by norm_num] at B0
  rw [show w / 256 = w / 2 ^ 8 by norm_num] at B0
  have B1 := bitrev_byte_step 48 (w / 2 ^ 8)
  rw [show (8 + 48 : Nat) = 56 by norm_num] at B1
  rw [show w / 2 ^ 8 / 256 = w / 2 ^ 16 by rw [Nat.div_div_eq_div_mul]; norm_num] at B1
  have B2 := bitrev_byte_step 40 (w / 2 ^ 16)
  rw [show (8 + 40 : Nat) = 48 by norm_num] at B2
  rw [show w / 2 ^ 16 / 256 = w / 2 ^ 24 by rw [Nat.div_div_eq_div_mul]; norm_num] at B2
  have B3 := bitrev_byte_step 32 (w / 2 ^ 24)
  rw [show (8 + 32 : Nat) = 40 by norm_num] at B3
  rw [show w / 2 ^ 24 / 256 = w / 2 ^ 32 by rw [Nat.div_div_eq_div_mul]; norm_num] at B3
  have B4 := bitrev_byte_step 24 (w / 2 ^ 32)
  rw [show (8 + 24 : Nat) = 32 by norm_num] at B4
  rw [show w / 2 ^ 32 / 256 = w / 2 ^ 40 by rw [Nat.div_div_eq_div_mul]; norm_num] at B4
  have B5 := bitrev_byte_step 16 (w / 2 ^ 40)
  rw [show (8 + 16 : Nat) = 24 by norm_num] at B5
  rw [show w / 2 ^ 40 / 256 = w / 2 ^ 48 by rw [Nat.div_div_eq_div_mul]; norm_num] at B5
  have B6 := bitrev_byte_step 8 (w / 2 ^ 48)
  rw [show (8 + 8 : Nat) = 16 by norm_num] at B6
  rw [show w / 2 ^ 48 / 256 = w / 2 ^ 56 by rw [Nat.div_div_eq_div_mul]; norm_num] at B6
  have hlast : w / 2 ^ 56 < 256 := by
    rw [Nat.div_lt_iff_lt_mul (Nat.two_pow_pos 56)]
    calc w < 2 ^ 64 := hw64
      _ = 256 * 2 ^ 56 := by norm_num
  have B7 : bitrev 8 (w / 2 ^ 56) = bitrev 8 (w / 2 ^ 56 % 256) := by
    rw [Nat.mod_eq_of_lt hlast]
  have hbig : bitrev 64 w =
      2 ^ 8 *
          ((((((bitrev 8 (w % 256) * 2 ^ 8 + bitrev 8 (w / 2 ^ 8 % 256)) * 2 ^ 8 +
                            bitrev 8 (w / 2 ^ 16 % 256)) *
                          2 ^ 8 +
                        bitrev 8 (w / 2 ^ 24 % 256)) *
                      2 ^ 8 +
                    bitrev 8 (w / 2 ^ 32 % 256)) *
                  2 ^ 8 +
                bitrev 8 (w / 2 ^ 40 % 256)) *
              2 ^ 8 +
            bitrev 8 (w / 2 ^ 48 % 256)) +
        bitrev 8 (w / 2 ^ 56 % 256) := by
    rw [B0, B1, B2, B3, B4, B5, B6, B7]
    ring
  rw [← hbig]
  have hfin := bitrev_split (64 - order) order w 0 hw
  rw [show order + (64 - order) = 64 by omega] at hfin
  rw [mul_zero, add_zero, bitrev_zero_input, zero_add] at hfin
  rw [hfin, Nat.shiftRight_eq_div_pow, Nat.mul_div_cancel_left _ (Nat.two_pow_pos _)]

/-! ### ffs on powers of two, and the claims about bit reversal -/

lemma ctz_two_pow (o : Nat) : detail.ctz (2 ^ o) = o := by
  induction o with
  | zero =>
    unfold detail.ctz
    norm_num
  | succ o ih =>
    unfold detail.ctz
    have h1 : ¬(2 ^ (o + 1) = 0 ∨ 2 ^ (o + 1) % 2 = 1) := by
      have hp : 0 < 2 ^ (o + 1) := Nat.two_pow_pos _
      have hm : 2 ^ (o + 1) % 2 = 0 := by
        rw [pow_succ, Nat.mul_mod_left]
      omega
    rw [if_neg h1]
    have h2 : 2 ^ (o + 1) / 2 = 2 ^ o := by
      rw [pow_succ, Nat.mul_div_cancel _ (by norm_num : 0 < 2)]
    rw [h2, ih]

lemma ffs_two_pow (o : Nat) (ho : o ≤ 31) : detail.ffs (2 ^ o) = o + 1 := by
  unfold detail.ffs
  have hlt : 2 ^ o < 2 ^ 32 := Nat.pow_lt_pow_right (by norm_num) (by omega)
  rw [Nat.mod_eq_of_lt hlt,
    if_neg (Nat.pos_iff_ne_zero.mp (Nat.two_pow_pos o)), ctz_two_pow]

/-- On sizes 2^o with o at most 31 (so that the int argument of
__builtin_ffs is not truncated) the order stored by bit_reverse_sort is
the exponent o. -/
lemma order_two_pow (o : Nat) (ho : o ≤ 31) :
    (detail.ffs (2 ^ o) + (2 ^ 32 - 1)) % 2 ^ 32 = o := by
  rw [ffs_two_pow o ho, show o + 1 + (2 ^ 32 - 1) = o + 2 ^ 32 by omega,
    Nat.add_mod_right, Nat.mod_eq_of_lt (by omega)]

/-- At size n = 2^32 the int argument of __builtin_ffs truncates to 0,
so ffs returns 0 and the unsigned order wraps to 4294967295 rather than
the exponent 32: the bit-reversal shift 64 - order then wraps past the
word width and the reversed indices leave the buffer. -/
lemma order_overflow_at_2_pow_32 :
    (detail.ffs (2 ^ 32) + (2 ^ 32 - 1)) % 2 ^ 32 = 4294967295 := by
  unfold detail.ffs
  rw [if_pos (Nat.mod_self _)]
  norm_num

/-- C8: for every order between 1 and 64 and every index i below
2^order, the byte-wise lookup-table computation bit_reverse_word(i,
order) equals the direct reversal of the order-bit binary
representation of i. -/
theorem claim_C8_lut_bit_reversal_refines_direct (order i : Nat)
    (h1 : 1 ≤ order) (h64 : order ≤ 64) (hi : i < 2 ^ order) :
    detail.bit_reverse_word i order = bitrev order i :=
  brw_eq_bitrev order h64 i hi

/-- Witness for C8 at order = 4, i = 1 (reversal 0b0001 -> 0b1000). -/
theorem claim_C8_witness :
    1 ≤ 4 ∧ 4 ≤ 64 ∧ 1 < 2 ^ 4 ∧
      detail.bit_reverse_word 1 4 = bitrev 4 1 ∧ bitrev 4 1 = 8 :=
  ⟨by norm_num, by norm_num, by norm_num,
    claim_C8_lut_bit_reversal_refines_direct 4 1 (by norm_num) (by norm_num)
      (by norm_num), by decide⟩

/-- C7: bit_reverse_word with a fixed order between 1 and 64 is a
self-inverse permutation of the indices below 2^order, and 0 and the
all-ones index are fixed points. -/
theorem claim_C7_bit_reversal_self_inverse (order i : Nat)
    (h1 : 1 ≤ order) (h64 : order ≤ 64) (hi : i < 2 ^ order) :
    detail.bit_reverse_word (detail.bit_reverse_word i order) order = i ∧
    detail.bit_reverse_word 0 order = 0 ∧
    detail.bit_reverse_word (2 ^ order - 1) order = 2 ^ order - 1 := by
  have hb := brw_eq_bitrev order h64 i hi
  have hlt : bitrev order i < 2 ^ order := bitrev_lt order i
  refine ⟨?_, ?_, ?_⟩
  · rw [hb, brw_eq_bitrev order h64 _ hlt, bitrev_bitrev order i hi]
  · rw [brw_eq_bitrev order h64 0 (Nat.two_pow_pos order), bitrev_zero_input]
  · have hm : 2 ^ order - 1 < 2 ^ order := by
      have := Nat.two_pow_pos order
      omega
    rw [brw_eq_bitrev order h64 _ hm, bitrev_all_ones]

/-- Witness for C7 at order = 4, i = 6. -/
theorem claim_C7_witness :
    1 ≤ 4 ∧ 4 ≤ 64 ∧ 6 < 2 ^ 4 ∧
      (detail.bit_reverse_word (detail.bit_reverse_word 6 4) 4 = 6 ∧
       detail.bit_reverse_word 0 4 = 0 ∧
       detail.bit_reverse_word (2 ^ 4 - 1) 4 = 2 ^ 4 - 1) :=
  ⟨by norm_num, by norm_num, by norm_num,
    claim_C7_bit_reversal_self_inverse 4 6 (by norm_num) (by norm_num)
      (by norm_num)⟩

/-- C10: for n = 2^o with 1 <= o <= 31 — the sizes on which the int
argument of __builtin_ffs is untruncated — every reversed index
computed by bit_reverse_sort with the stored order is below n; every
butterfly access pair (j, j + grp_size/2) with grp_size = 2^s stays
below n; and the right shift 8*sizeof(word) - order in bit_reverse_word
is strictly below the 64-bit word width.  The final conjunct exhibits
the failure of the claim beyond that range: at n = 2^32 the stored
order wraps to 4294967295, so the shift amount 64 - order, computed at
the unsigned 64-bit word type, wraps far past the word width. -/
theorem claim_C10_accesses_in_bounds (o s grp j i : Nat)
    (ho1 : 1 ≤ o) (ho31 : o ≤ 31) (hi1 : 1 ≤ i) (hi : i < 2 ^ o)
    (hs1 : 1 ≤ s) (hso : s ≤ o) (hgrp : grp < 2 ^ o / 2 ^ s)
    (hj1 : grp * 2 ^ s ≤ j) (hj2 : j < grp * 2 ^ s + 2 ^ s / 2) :
    detail.bit_reverse_word i ((detail.ffs (2 ^ o) + (2 ^ 32 - 1)) % 2 ^ 32) < 2 ^ o ∧
    j + 2 ^ s / 2 < 2 ^ o ∧
    8 * 8 - ((detail.ffs (2 ^ o) + (2 ^ 32 - 1)) % 2 ^ 32) < 64 ∧
    ¬ (8 * 8 + 2 ^ 64 - (detail.ffs (2 ^ 32) + (2 ^ 32 - 1)) % 2 ^ 32) % 2 ^ 64 < 64 := by
  have hffs : (detail.ffs (2 ^ o) + (2 ^ 32 - 1)) % 2 ^ 32 = o :=
    order_two_pow o ho31
  refine ⟨?_, ?_, ?_, ?_⟩
  · rw [hffs, brw_eq_bitrev o (by omega) i hi]
    exact bitrev_lt o i
  · have hgrp1 : grp + 1 ≤ 2 ^ o / 2 ^ s := hgrp
    have hmul : (grp + 1) * 2 ^ s ≤ (2 ^ o / 2 ^ s) * 2 ^ s :=
      Nat.mul_le_mul_right _ hgrp1
    have hdvd : 2 ^ s ∣ 2 ^ o := pow_dvd_pow 2 hso
    rw [Nat.div_mul_cancel hdvd] at hmul
    have hx : (grp + 1) * 2 ^ s = grp * 2 ^ s + 2 ^ s := by ring
    have heven : 2 * (2 ^ s / 2) = 2 ^ s :=
      Nat.mul_div_cancel' (dvd_pow_self 2 (by omega))
    omega
  · rw [hffs]
    omega
  · rw [order_overflow_at_2_pow_32]
    norm_num

/-- Witness for C10 at o = 2, s = 1, grp = 1, j = 2, i = 1. -/
theorem claim_C10_witness :
    1 ≤ 2 ∧ 2 ≤ 31 ∧ 1 ≤ 1 ∧ 1 < 2 ^ 2 ∧ 1 ≤ 1 ∧ 1 ≤ 2 ∧
      1 < 2 ^ 2 / 2 ^ 1 ∧ 1 * 2 ^ 1 ≤ 2 ∧ 2 < 1 * 2 ^ 1 + 2 ^ 1 / 2 ∧
      (detail.bit_reverse_word 1 ((detail.ffs (2 ^ 2) + (2 ^ 32 - 1)) % 2 ^ 32) < 2 ^ 2 ∧
       2 + 2 ^ 1 / 2 < 2 ^ 2 ∧
       8 * 8 - ((detail.ffs (2 ^ 2) + (2 ^ 32 - 1)) % 2 ^ 32) < 64 ∧
       ¬ (8 * 8 + 2 ^ 64 - (detail.ffs (2 ^ 32) + (2 ^ 32 - 1)) % 2 ^ 32) % 2 ^ 64 < 64) :=
  ⟨by norm_num, by norm_num, by norm_num, by norm_num, by norm_num,
    by norm_num, by norm_num, by norm_num, by norm_num,
    claim_C10_accesses_in_bounds 2 1 1 2 1 (by norm_num) (by norm_num)
      (by norm_num) (by norm_num) (by norm_num) (by norm_num) (by norm_num)
      (by norm_num) (by norm_num)⟩

/-! ### Semantics of the iterative butterfly network -/

lemma sum_range_double {M : Type} [AddCommMonoid M] (m : Nat) (f : Nat → M) :
    ∑ j ∈ Finset.range (2 * m), f j =
      (∑ j ∈ Finset.range m, f (2 * j)) + ∑ j ∈ Finset.range m, f (2 * j + 1) := by
  induction m with
  | zero => simp
  | succ m ih =>
    have h2 : 2 * (m + 1) = 2 * m + 1 + 1 := by ring
    rw [h2, Finset.sum_range_succ, Finset.sum_range_succ, Finset.sum_range_succ,
      Finset.sum_range_succ, ih]
    have h3 : 2 * m + 1 = 2 * m + 1 := rfl
    abel

namespace detail

lemma fft_inner_stop (w : ℂ) (half i stop : Nat) (wc : ℂ) (d : Nat → ℂ)
    (h : ¬ i < stop) : fft_inner w half i stop wc d = d := by
  unfold fft_inner
  rw [if_neg h]

lemma fft_inner_step (w : ℂ) (half i stop : Nat) (wc : ℂ) (d : Nat → ℂ)
    (h : i < stop) :
    fft_inner w half i stop wc d =
      fft_inner w half (i + 1) stop (wc * w)
        (Function.update (Function.update d i (d i + d (i + half) * wc))
          (i + half) (d i - d (i + half) * wc)) := by
  conv_lhs => rw [fft_inner]
  rw [if_pos h]

lemma fft_inner_apply (w : ℂ) (half : Nat) :
    ∀ len i0 wc d p, len ≤ half →
      fft_inner w half i0 (i0 + len) wc d p =
        if i0 ≤ p ∧ p < i0 + len then
          d p + d (p + half) * (wc * w ^ (p - i0))
        else if i0 + half ≤ p ∧ p < i0 + len + half then
          d (p - half) - d p * (wc * w ^ (p - half - i0))
        else d p := by
  intro len
  induction len with
  | zero =>
    intro i0 wc d p hlen
    rw [fft_inner_stop _ _ _ _ _ _ (by omega)]
    rw [if_neg (by omega), if_neg (by omega)]
  | succ len ih =>
    intro i0 wc d p hlen
    have hhalf : 1 ≤ half := by omega
    rw [fft_inner_step _ _ _ _ _ _ (by omega : i0 < i0 + (len + 1))]
    have harg : i0 + (len + 1) = i0 + 1 + len := by omega
    rw [harg]
    rw [ih (i0 + 1) (wc * w) _ p (by omega)]
    by_cases hp1 : p = i0
    · subst hp1
      rw [if_neg (by omega), if_neg (by omega),
        if_pos (show p ≤ p ∧ p < p + 1 + len by omega)]
      rw [Function.update_noteq (show p ≠ p + half by omega),
        Function.update_same, Nat.sub_self, pow_zero, mul_one]
    · by_cases hp2 : p = i0 + half
      · subst hp2
        rw [if_neg (show ¬(i0 + 1 ≤ i0 + half ∧ i0 + half < i0 + 1 + len) by omega)]
        rw [if_neg (show ¬(i0 + 1 + half ≤ i0 + half ∧
            i0 + half < i0 + 1 + len + half) by omega)]
        rw [Function.update_same]
        rw [if_neg (show ¬(i0 ≤ i0 + half ∧ i0 + half < i0 + 1 + len) by omega)]
        rw [if_pos (show i0 + half ≤ i0 + half ∧ i0 + half < i0 + 1 + len + half
          by omega)]
        rw [Nat.add_sub_cancel, Nat.sub_self, pow_zero, mul_one]
      · by_cases hA : i0 + 1 ≤ p ∧ p < i0 + 1 + len
        · rw [if_pos hA]
          rw [Function.update_noteq (show p ≠ i0 + half by omega),
            Function.update_noteq (show p ≠ i0 by omega),
            Function.update_noteq (show p + half ≠ i0 + half by omega),
            Function.update_noteq (show p + half ≠ i0 by omega)]
          rw [if_pos (show i0 ≤ p ∧ p < i0 + 1 + len by omega)]
          have hexp : p - i0 = (p - (i0 + 1)) + 1 := by omega
          rw [hexp, pow_succ]
          ring
        · by_cases hB : i0 + 1 + half ≤ p ∧ p < i0 + 1 + len + half
          · rw [if_neg hA, if_pos hB]
            rw [Function.update_noteq (show p - half ≠ i0 + half by omega),
              Function.update_noteq (show p - half ≠ i0 by omega),
              Function.update_noteq (show p ≠ i0 + half by omega),
              Function.update_noteq (show p ≠ i0 by omega)]
            rw [if_neg (show ¬(i0 ≤ p ∧ p < i0 + 1 + len) by omega)]
            rw [if_pos (show i0 + half ≤ p ∧ p < i0 + 1 + len + half by omega)]
            have hexp : p - half - i0 = (p - half - (i0 + 1)) + 1 := by omega
            rw [hexp, pow_succ]
            ring
          · rw [if_neg hA, if_neg hB]
            rw [Function.update_noteq (show p ≠ i0 + half by omega),
              Function.update_noteq (show p ≠ i0 by omega)]
            rw [if_neg (show ¬(i0 ≤ p ∧ p < i0 + 1 + len) by omega)]
            rw [if_neg (show ¬(i0 + half ≤ p ∧ p < i0 + 1 + len + half) by omega)]

lemma fft_groups_stop (w : ℂ) (gs n g0 : Nat) (d : Nat → ℂ)
    (hg : ¬ g0 < n / gs) : fft_groups w gs n g0 d = d := by
  unfold fft_groups
  rw [if_neg hg]

lemma fft_groups_step (w : ℂ) (gs n g0 : Nat) (d : Nat → ℂ)
    (hg : g0 < n / gs) :
    fft_groups w gs n g0 d =
      fft_groups w gs n (g0 + 1)
        (fft_inner w (gs / 2) (g0 * gs) (g0 * gs + gs / 2) 1 d) := by
  conv_lhs => rw [fft_groups]
  rw [if_pos hg]

lemma fft_groups_apply (w : ℂ) (h n : Nat) (hh : 0 < h) :
    ∀ k g0 d p, n / (2 * h) - g0 = k →
      fft_groups w (2 * h) n g0 d p =
        if g0 ≤ p / (2 * h) ∧ p / (2 * h) < n / (2 * h) then
          (if p % (2 * h) < h then d p + d (p + h) * w ^ (p % (2 * h))
           else d (p - h) - d p * w ^ (p % (2 * h) - h))
        else d p := by
  intro k
  induction k with
  | zero =>
    intro g0 d p hk
    rw [fft_groups_stop _ _ _ _ _ (by omega)]
    rw [if_neg (by omega)]
  | succ k ih =>
    intro g0 d p hk
    have hg : g0 < n / (2 * h) := by omega
    rw [fft_groups_step _ _ _ _ _ hg]
    have hhalf : 2 * h / 2 = h := by omega
    rw [hhalf]
    set d1 := fft_inner w h (g0 * (2 * h)) (g0 * (2 * h) + h) 1 d with hd1def
    have hd1 : ∀ q, d1 q =
        if g0 * (2 * h) ≤ q ∧ q < g0 * (2 * h) + h then
          d q + d (q + h) * (1 * w ^ (q - g0 * (2 * h)))
        else if g0 * (2 * h) + h ≤ q ∧ q < g0 * (2 * h) + h + h then
          d (q - h) - d q * (1 * w ^ (q - h - g0 * (2 * h)))
        else d q := by
      intro q
      rw [hd1def]
      exact fft_inner_apply w h h (g0 * (2 * h)) 1 d q le_rfl
    rw [ih (g0 + 1) d1 p (by omega)]
    -- arithmetic facts shared by all cases
    have hgs : 0 < 2 * h := by omega
    have hdecomp : 2 * h * (p / (2 * h)) + p % (2 * h) = p := Nat.div_add_mod p (2 * h)
    have hmodlt : p % (2 * h) < 2 * h := Nat.mod_lt _ hgs
    have e3 : 2 * h * (g0 + 1) = g0 * (2 * h) + 2 * h := by ring
    by_cases hc : g0 + 1 ≤ p / (2 * h) ∧ p / (2 * h) < n / (2 * h)
    · -- p lies in a group strictly after g0: d1 agrees with d there
      have hmul : 2 * h * (g0 + 1) ≤ 2 * h * (p / (2 * h)) :=
        Nat.mul_le_mul_left _ hc.1
      rw [if_pos hc, if_pos (show g0 ≤ p / (2 * h) ∧ p / (2 * h) < n / (2 * h) by omega)]
      by_cases hr : p % (2 * h) < h
      · rw [if_pos hr, if_pos hr]
        rw [hd1 p, if_neg (by omega), if_neg (by omega)]
        rw [hd1 (p + h), if_neg (by omega), if_neg (by omega)]
      · rw [if_neg hr, if_neg hr]
        rw [hd1 (p - h), if_neg (by omega), if_neg (by omega)]
        rw [hd1 p, if_neg (by omega), if_neg (by omega)]
    · by_cases hc0 : g0 ≤ p / (2 * h) ∧ p / (2 * h) < n / (2 * h)
      · -- p lies exactly in group g0
        have hpg : p / (2 * h) = g0 := by omega
        have e5 : 2 * h * (p / (2 * h)) = g0 * (2 * h) := by rw [hpg]; ring
        rw [if_neg (by omega), if_pos hc0]
        by_cases hr : p % (2 * h) < h
        · rw [if_pos hr]
          rw [hd1 p, if_pos (by omega)]
          have e6 : p - g0 * (2 * h) = p % (2 * h) := by omega
          rw [e6, one_mul]
        · rw [if_neg hr]
          rw [hd1 p, if_neg (by omega), if_pos (by omega)]
          have e7 : p - h - g0 * (2 * h) = p % (2 * h) - h := by omega
          rw [e7, one_mul]
      · -- p lies before group g0 or past the processed region
        rw [if_neg (by omega), if_neg hc0]
        by_cases hlt : p / (2 * h) < g0
        · have hm1 : 2 * h * (p / (2 * h) + 1) ≤ 2 * h * g0 :=
            Nat.mul_le_mul_left _ (by omega)
          have e8 : 2 * h * g0 = g0 * (2 * h) := by ring
          have e9 : 2 * h * (p / (2 * h) + 1) = 2 * h * (p / (2 * h)) + 2 * h := by
            ring
          rw [hd1 p, if_neg (by omega), if_neg (by omega)]
        · have hge : g0 + 1 ≤ p / (2 * h) := by omega
          have hm1 : 2 * h * (g0 + 1) ≤ 2 * h * (p / (2 * h)) :=
            Nat.mul_le_mul_left _ hge
          rw [hd1 p, if_neg (by omega), if_neg (by omega)]

lemma stage_step (o s : Nat) (w : ℂ) (hw : w ^ (2 ^ o / 2) = -1) (hs : s + 1 ≤ o)
    (x d : Nat → ℂ) (hd : StageInv w o s x d) :
    StageInv w o (s + 1) x
      (fft_groups (w ^ (2 ^ o / 2 ^ (s + 1))) (2 ^ (s + 1)) (2 ^ o) 0 d) := by
  intro q t hq ht
  have hK : 2 ^ o / 2 ^ (s + 1) = 2 ^ (o - s - 1) := by
    rw [Nat.pow_div hs (by norm_num), Nat.sub_sub]
  have hK2 : 2 ^ o / 2 ^ s = 2 ^ (o - s) := Nat.pow_div (by omega) (by norm_num)
  have hKK : (2 : Nat) ^ (o - s) = 2 * 2 ^ (o - s - 1) := by
    rw [← pow_succ']
    congr 1
    omega
  have hgs : (2 : Nat) ^ (s + 1) = 2 * 2 ^ s := by rw [pow_succ]; ring
  have hsub : o - (s + 1) = o - s - 1 := by omega
  have h21 : (2 : Nat) ^ o / 2 = 2 ^ (o - 1) := by
    have h1 := Nat.pow_div (show 1 ≤ o by omega) (show 0 < 2 by norm_num)
    rw [pow_one] at h1
    exact h1
  have hw1 : w ^ 2 ^ (o - 1) = -1 := by rw [← h21]; exact hw
  have hWm : w ^ (2 ^ (o - s - 1) * 2 ^ s) = -1 := by
    rw [← pow_add]
    have : o - s - 1 + s = o - 1 := by omega
    rw [this]
    exact hw1
  -- bounds in the unreduced forms
  have hq1 : q < 2 ^ (o - s - 1) := by rw [← hK]; exact hq
  have hqE : 2 * q < 2 ^ o / 2 ^ s := by rw [hK2]; omega
  have hqO : 2 * q + 1 < 2 ^ o / 2 ^ s := by rw [hK2]; omega
  -- rewrite the goal
  rw [hK, hsub, hgs]
  rw [hgs] at ht
  have hq2 : q < 2 ^ o / (2 * 2 ^ s) := by rw [← hgs, hK]; exact hq1
  rw [fft_groups_apply (w ^ 2 ^ (o - s - 1)) (2 ^ s) (2 ^ o) (Nat.two_pow_pos s)
    (2 ^ o / (2 * 2 ^ s) - 0) 0 d _ rfl]
  have hpos : 0 < 2 * 2 ^ s := by positivity
  have hdiv : (q * (2 * 2 ^ s) + t) / (2 * 2 ^ s) = q := by
    rw [add_comm, mul_comm q (2 * 2 ^ s), Nat.add_mul_div_left _ _ hpos,
      Nat.div_eq_of_lt ht, zero_add]
  have hmod : (q * (2 * 2 ^ s) + t) % (2 * 2 ^ s) = t := by
    rw [add_comm, mul_comm q (2 * 2 ^ s), Nat.add_mul_mod_self_left,
      Nat.mod_eq_of_lt ht]
  rw [hdiv, hmod, if_pos (show 0 ≤ q ∧ q < 2 ^ o / (2 * 2 ^ s) from ⟨Nat.zero_le q, hq2⟩)]
  have hos : o - s = o - s - 1 + 1 := by omega
  have hre : bitrev (o - s) (2 * q) = bitrev (o - s - 1) q := by
    conv_lhs => rw [hos]
    rw [bitrev_double]
  have hro : bitrev (o - s) (2 * q + 1) = bitrev (o - s - 1) q + 2 ^ (o - s - 1) := by
    conv_lhs => rw [hos]
    rw [bitrev_double_succ]
  by_cases hr : t < 2 ^ s
  · -- first half of the group
    rw [if_pos hr]
    have hpos1 : q * (2 * 2 ^ s) + t = 2 * q * 2 ^ s + t := by ring
    have hpos2 : 2 * q * 2 ^ s + t + 2 ^ s = (2 * q + 1) * 2 ^ s + t := by ring
    rw [hpos1, hpos2]
    have hdE := hd (2 * q) t hqE hr
    have hdO := hd (2 * q + 1) t hqO hr
    rw [hK2, hKK, hre] at hdE
    rw [hK2, hKK, hro] at hdO
    rw [hdE, hdO]
    rw [sum_range_double (2 ^ s)
      (fun j => x (bitrev (o - s - 1) q + j * 2 ^ (o - s - 1)) *
        (w ^ 2 ^ (o - s - 1)) ^ (j * t))]
    have hEv : ∑ j ∈ Finset.range (2 ^ s),
        x (bitrev (o - s - 1) q + j * (2 * 2 ^ (o - s - 1))) *
          (w ^ (2 * 2 ^ (o - s - 1))) ^ (j * t) =
        ∑ j ∈ Finset.range (2 ^ s),
          x (bitrev (o - s - 1) q + 2 * j * 2 ^ (o - s - 1)) *
            (w ^ 2 ^ (o - s - 1)) ^ (2 * j * t) := by
      refine Finset.sum_congr rfl fun j hj => ?_
      congr 1
      · congr 1
        ring
      · rw [← pow_mul, ← pow_mul]
        congr 1
        ring
    have hOd : (∑ j ∈ Finset.range (2 ^ s),
        x (bitrev (o - s - 1) q + 2 ^ (o - s - 1) + j * (2 * 2 ^ (o - s - 1))) *
          (w ^ (2 * 2 ^ (o - s - 1))) ^ (j * t)) * (w ^ 2 ^ (o - s - 1)) ^ t =
        ∑ j ∈ Finset.range (2 ^ s),
          x (bitrev (o - s - 1) q + (2 * j + 1) * 2 ^ (o - s - 1)) *
            (w ^ 2 ^ (o - s - 1)) ^ ((2 * j + 1) * t) := by
      rw [Finset.sum_mul]
      refine Finset.sum_congr rfl fun j hj => ?_
      rw [mul_assoc]
      congr 1
      · congr 1
        ring
      · rw [← pow_mul, ← pow_mul, ← pow_mul, ← pow_add]
        congr 1
        ring
    rw [hEv, hOd]
  · -- second half of the group
    rw [if_neg hr]
    have htu : t = 2 ^ s + (t - 2 ^ s) := by omega
    have hlink : q * (2 * 2 ^ s) = 2 * q * 2 ^ s := by ring
    have hpos1 : q * (2 * 2 ^ s) + t - 2 ^ s = 2 * q * 2 ^ s + (t - 2 ^ s) := by
      omega
    have hpos2 : q * (2 * 2 ^ s) + t = (2 * q + 1) * 2 ^ s + (t - 2 ^ s) := by
      have h2 : (2 * q + 1) * 2 ^ s = q * (2 * 2 ^ s) + 2 ^ s := by ring
      omega
    rw [hpos1, hpos2]
    have hu : t - 2 ^ s < 2 ^ s := by omega
    have hdE := hd (2 * q) (t - 2 ^ s) hqE hu
    have hdO := hd (2 * q + 1) (t - 2 ^ s) hqO hu
    rw [hK2, hKK, hre] at hdE
    rw [hK2, hKK, hro] at hdO
    rw [hdE, hdO]
    rw [sum_range_double (2 ^ s)
      (fun j => x (bitrev (o - s - 1) q + j * 2 ^ (o - s - 1)) *
        (w ^ 2 ^ (o - s - 1)) ^ (j * t))]
    have hEv : ∑ j ∈ Finset.range (2 ^ s),
        x (bitrev (o - s - 1) q + 2 * j * 2 ^ (o - s - 1)) *
          (w ^ 2 ^ (o - s - 1)) ^ (2 * j * t) =
        ∑ j ∈ Finset.range (2 ^ s),
          x (bitrev (o - s - 1) q + j * (2 * 2 ^ (o - s - 1))) *
            (w ^ (2 * 2 ^ (o - s - 1))) ^ (j * (t - 2 ^ s)) := by
      refine Finset.sum_congr rfl fun j hj => ?_
      congr 1
      · congr 1
        ring
      · have hsplit : 2 ^ (o - s - 1) * (2 * j * t) =
            2 ^ (o - s - 1) * 2 ^ s * (2 * j) +
              2 * 2 ^ (o - s - 1) * (j * (t - 2 ^ s)) := by
          have ht2 : t = 2 ^ s + (t - 2 ^ s) := htu
          calc 2 ^ (o - s - 1) * (2 * j * t)
              = 2 ^ (o - s - 1) * (2 * j * (2 ^ s + (t - 2 ^ s))) := by rw [← ht2]
            _ = 2 ^ (o - s - 1) * 2 ^ s * (2 * j) +
                2 * 2 ^ (o - s - 1) * (j * (t - 2 ^ s)) := by ring
        rw [← pow_mul, hsplit, pow_add, pow_mul w (2 ^ (o - s - 1) * 2 ^ s), hWm]
        have heven : (-1 : ℂ) ^ (2 * j) = 1 := by
          have : Even (2 * j) := ⟨j, by ring⟩
          exact this.neg_one_pow
        rw [heven, one_mul, pow_mul]
    have hOd : ∑ j ∈ Finset.range (2 ^ s),
        x (bitrev (o - s - 1) q + (2 * j + 1) * 2 ^ (o - s - 1)) *
          (w ^ 2 ^ (o - s - 1)) ^ ((2 * j + 1) * t) =
        -((∑ j ∈ Finset.range (2 ^ s),
            x (bitrev (o - s - 1) q + 2 ^ (o - s - 1) + j * (2 * 2 ^ (o - s - 1))) *
              (w ^ (2 * 2 ^ (o - s - 1))) ^ (j * (t - 2 ^ s))) *
          (w ^ 2 ^ (o - s - 1)) ^ (t - 2 ^ s)) := by
      rw [Finset.sum_mul, ← Finset.sum_neg_distrib]
      refine Finset.sum_congr rfl fun j hj => ?_
      have hsplit : 2 ^ (o - s - 1) * ((2 * j + 1) * t) =
          2 ^ (o - s - 1) * 2 ^ s * (2 * j + 1) +
            (2 * 2 ^ (o - s - 1) * (j * (t - 2 ^ s)) +
              2 ^ (o - s - 1) * (t - 2 ^ s)) := by
        calc 2 ^ (o - s - 1) * ((2 * j + 1) * t)
            = 2 ^ (o - s - 1) * ((2 * j + 1) * (2 ^ s + (t - 2 ^ s))) := by
              rw [← htu]
          _ = 2 ^ (o - s - 1) * 2 ^ s * (2 * j + 1) +
              (2 * 2 ^ (o - s - 1) * (j * (t - 2 ^ s)) +
                2 ^ (o - s - 1) * (t - 2 ^ s)) := by ring
      rw [← pow_mul, hsplit, pow_add, pow_mul w (2 ^ (o - s - 1) * 2 ^ s), hWm]
      have hodd : (-1 : ℂ) ^ (2 * j + 1) = -1 := by
        have : Odd (2 * j + 1) := ⟨j, by ring⟩
        exact this.neg_one_pow
      rw [hodd, pow_add, pow_mul, pow_mul]
      ring
    rw [hEv, hOd]
    ring

lemma fft_stages_stop (w : ℂ) (n gs : Nat) (d : Nat → ℂ)
    (h : ¬(0 < gs ∧ gs ≤ n)) : fft_stages w n gs d = d := by
  unfold fft_stages
  rw [if_neg h]

lemma fft_stages_step (w : ℂ) (n gs : Nat) (d : Nat → ℂ) (h : 0 < gs ∧ gs ≤ n) :
    fft_stages w n gs d =
      fft_stages w n (gs * 2) (fft_groups (w ^ (n / gs)) gs n 0 d) := by
  conv_lhs => rw [fft_stages]
  rw [if_pos h]

lemma stages_from (o : Nat) (w : ℂ) (hw : w ^ (2 ^ o / 2) = -1) (x : Nat → ℂ) :
    ∀ k s d, o - s = k → s ≤ o → StageInv w o s x d →
      StageInv w o o x (fft_stages w (2 ^ o) (2 ^ (s + 1)) d) := by
  intro k
  induction k with
  | zero =>
    intro s d hk hso hd
    have hseq : s = o := by omega
    subst hseq
    have hlt : 2 ^ s < 2 ^ (s + 1) := Nat.pow_lt_pow_right (by norm_num) (by omega)
    rw [fft_stages_stop _ _ _ _ (by omega)]
    exact hd
  | succ k ih =>
    intro s d hk hso hd
    have hslt : s + 1 ≤ o := by omega
    have hle : 2 ^ (s + 1) ≤ 2 ^ o := Nat.pow_le_pow_right (by norm_num) hslt
    rw [fft_stages_step _ _ _ _ ⟨Nat.two_pow_pos _, hle⟩]
    have hmul : 2 ^ (s + 1) * 2 = 2 ^ (s + 1 + 1) := (pow_succ 2 (s + 1)).symm
    rw [hmul]
    exact ih (s + 1) _ (by omega) hslt (stage_step o s w hw hslt x d hd)

lemma swap_apply (d : Nat → ℂ) (i j p : Nat) :
    swap d i j p = if p = j then d i else if p = i then d j else d p := by
  unfold swap
  by_cases h1 : p = j
  · subst h1
    rw [Function.update_same, if_pos rfl]
  · rw [Function.update_noteq h1, if_neg h1]
    by_cases h2 : p = i
    · subst h2
      rw [Function.update_same, if_pos rfl]
    · rw [Function.update_noteq h2, if_neg h2]

lemma brs_loop_stop (order size i : Nat) (d : Nat → ℂ) (h : ¬ i < size) :
    brs_loop order size i d = d := by
  unfold brs_loop
  rw [if_neg h]

lemma brs_loop_step (order size i : Nat) (d : Nat → ℂ) (h : i < size) :
    brs_loop order size i d =
      brs_loop order size (i + 1)
        (if bit_reverse_word i order ≥ i then swap d i (bit_reverse_word i order)
         else d) := by
  conv_lhs => rw [brs_loop]
  rw [if_pos h]

lemma brs_loop_spec (o : Nat) (ho : o ≤ 64) (x : Nat → ℂ) :
    ∀ k i d, 2 ^ o - i = k →
      (∀ p, p < 2 ^ o →
        d p = if p < i ∨ bitrev o p < i then x (bitrev o p) else x p) →
      ∀ p, p < 2 ^ o → brs_loop o (2 ^ o) i d p = x (bitrev o p) := by
  intro k
  induction k with
  | zero =>
    intro i d hk hinv p hp
    rw [brs_loop_stop _ _ _ _ (by omega)]
    have h1 := hinv p hp
    rw [if_pos (by omega)] at h1
    exact h1
  | succ k ih =>
    intro i d hk hinv p hp
    have hi : i < 2 ^ o := by omega
    rw [brs_loop_step _ _ _ _ hi]
    have hrev : bit_reverse_word i o = bitrev o i := brw_eq_bitrev o ho i hi
    have hrlt : bitrev o i < 2 ^ o := bitrev_lt o i
    have hinvi : bitrev o (bitrev o i) = i := bitrev_bitrev o i hi
    rw [hrev]
    refine ih (i + 1) _ (by omega) ?_ p hp
    intro p2 hp2
    have hinvp2 : bitrev o (bitrev o p2) = p2 := bitrev_bitrev o p2 hp2
    have hp2lt : bitrev o p2 < 2 ^ o := bitrev_lt o p2
    by_cases hcase : bitrev o i ≥ i
    · rw [if_pos hcase, swap_apply]
      by_cases h1 : p2 = bitrev o i
      · subst h1
        rw [if_pos rfl, hinvi]
        have hd := hinv i hi
        rw [if_neg (by omega)] at hd
        rw [hd, if_pos (by omega)]
      · rw [if_neg h1]
        by_cases h2 : p2 = i
        · subst h2
          rw [if_pos rfl]
          have hd := hinv (bitrev o p2) hp2lt
          rw [hinvp2] at hd
          rw [if_neg (by omega)] at hd
          rw [hd, if_pos (by omega)]
        · have hne : bitrev o p2 ≠ i := by
            intro he
            apply h1
            calc p2 = bitrev o (bitrev o p2) := hinvp2.symm
              _ = bitrev o i := by rw [he]
          rw [if_neg h2]
          have hd := hinv p2 hp2
          rw [hd]
          by_cases hm : p2 < i ∨ bitrev o p2 < i
          · rw [if_pos hm,
              if_pos (hm.imp (fun hc => by omega) (fun hc => by omega))]
          · have hm1 : ¬ p2 < i := fun hc => hm (Or.inl hc)
            have hm2 : ¬ bitrev o p2 < i := fun hc => hm (Or.inr hc)
            rw [if_neg hm, if_neg (by omega)]
    · rw [if_neg hcase]
      have hd := hinv p2 hp2
      rw [hd]
      by_cases h2 : p2 = i
      · subst h2
        rw [if_pos (by omega), if_pos (by omega)]
      · by_cases hm : p2 < i ∨ bitrev o p2 < i
        · rw [if_pos hm,
            if_pos (hm.imp (fun hc => by omega) (fun hc => by omega))]
        · have hm1 : ¬ p2 < i := fun hc => hm (Or.inl hc)
          have hm2 : ¬ bitrev o p2 < i := fun hc => hm (Or.inr hc)
          have hne : bitrev o p2 ≠ i := by
            intro he
            have hpb : p2 = bitrev o i := by
              rw [← he, hinvp2]
            omega
          rw [if_neg hm, if_neg (by omega)]

lemma bit_reverse_sort_spec (o : Nat) (ho : o ≤ 31) (x : Nat → ℂ) (p : Nat)
    (hp : p < 2 ^ o) : bit_reverse_sort (2 ^ o) x p = x (bitrev o p) := by
  unfold bit_reverse_sort
  rw [order_two_pow o ho]
  refine brs_loop_spec o (by omega) x (2 ^ o - 1) 1 x (by omega) ?_ p hp
  intro p2 hp2
  by_cases hm : p2 < 1 ∨ bitrev o p2 < 1
  · rw [if_pos hm]
    have hz : p2 = 0 := by
      rcases hm with hm | hm
      · omega
      · have h0 : bitrev o p2 = 0 := by omega
        have := bitrev_bitrev o p2 hp2
        rw [h0, bitrev_zero_input] at this
        omega
    subst hz
    rw [bitrev_zero_input]
  · rw [if_neg hm]

lemma network_dft (o : Nat) (h1 : 1 ≤ o) (h31 : o ≤ 31) (w : ℂ)
    (hw : w ^ (2 ^ o / 2) = -1) (x : Nat → ℂ) (k : Nat) (hk : k < 2 ^ o) :
    fft_stages w (2 ^ o) 2 (bit_reverse_sort (2 ^ o) x) k =
      ∑ j ∈ Finset.range (2 ^ o), x j * w ^ (j * k) := by
  have hbase : StageInv w o 0 x (bit_reverse_sort (2 ^ o) x) := by
    intro q t hq ht
    have h20 : (2 : Nat) ^ 0 = 1 := rfl
    rw [h20] at hq ht ⊢
    have ht0 : t = 0 := by omega
    subst ht0
    have hq' : q < 2 ^ o := by
      rw [Nat.div_one] at hq
      exact hq
    rw [mul_one, add_zero, bit_reverse_sort_spec o h31 x q hq']
    rw [Finset.sum_range_one]
    norm_num
  have hstages := stages_from o w hw x o 0 (bit_reverse_sort (2 ^ o) x)
    (by omega) (by omega) hbase
  have h21 : (2 : Nat) ^ (0 + 1) = 2 := by norm_num
  rw [h21] at hstages
  have hone : 2 ^ o / 2 ^ o = 1 := Nat.div_self (Nat.two_pow_pos o)
  have hfin := hstages 0 k (by omega) hk
  rw [zero_mul, zero_add] at hfin
  rw [hfin]
  refine Finset.sum_congr rfl fun j hj => ?_
  rw [hone]
  have hb0 : bitrev (o - o) 0 = 0 := by
    have : o - o = 0 := by omega
    rw [this]
    rfl
  rw [hb0, zero_add, mul_one, pow_one]


end detail

/-! ### From the butterfly network to fft_impl -/

namespace detail

lemma scale_loop_stop (n i : Nat) (d : Nat → ℂ) (h : ¬ i < n) :
    scale_loop n i d = d := by
  unfold scale_loop
  rw [if_neg h]

lemma scale_loop_step (n i : Nat) (d : Nat → ℂ) (h : i < n) :
    scale_loop n i d =
      scale_loop n (i + 1) (Function.update d i (d i / (n : ℂ))) := by
  conv_lhs => rw [scale_loop]
  rw [if_pos h]

lemma scale_loop_apply (n : Nat) :
    ∀ k i d p, n - i = k →
      scale_loop n i d p = if i ≤ p ∧ p < n then d p / (n : ℂ) else d p := by
  intro k
  induction k with
  | zero =>
    intro i d p hk
    rw [scale_loop_stop _ _ _ (by omega), if_neg (by omega)]
  | succ k ih =>
    intro i d p hk
    have hi : i < n := by omega
    rw [scale_loop_step _ _ _ hi, ih (i + 1) _ p (by omega)]
    by_cases hp : p = i
    · subst hp
      rw [if_neg (by omega), Function.update_same, if_pos (by omega)]
    · rw [Function.update_noteq hp]
      by_cases hc : i + 1 ≤ p ∧ p < n
      · rw [if_pos hc, if_pos (by omega)]
      · rw [if_neg hc, if_neg (by omega)]

lemma two_pow_land_pred (o : Nat) : 2 ^ o &&& (2 ^ o - 1) = 0 := by
  apply Nat.eq_of_testBit_eq
  intro j
  rw [Nat.testBit_and, Nat.testBit_two_pow_sub_one, Nat.zero_testBit]
  by_cases h : o = j
  · subst h
    simp
  · rw [Nat.testBit_two_pow_of_ne h]
    simp

lemma valid_size_check (o : Nat) (h1 : 1 ≤ o) :
    ¬(2 ^ o &&& (2 ^ o - 1) ≠ 0 ∨ 2 ^ o < 2) := by
  have h2 : (2 : Nat) ≤ 2 ^ o := by
    calc (2 : Nat) = 2 ^ 1 := by norm_num
      _ ≤ 2 ^ o := Nat.pow_le_pow_right (by norm_num) h1
  rw [two_pow_land_pred]
  omega

lemma fft_impl_true_eq (o : Nat) (h1 : 1 ≤ o) (x : Nat → ℂ) :
    fft_impl true (2 ^ o) x =
      (0, scale_loop (2 ^ o) 0
        (fft_stages
          (Complex.exp (((2 * Real.pi * (-1) / ((2 ^ o : ℕ) : ℝ) : ℝ) : ℂ) *
            Complex.I))
          (2 ^ o) 2 (bit_reverse_sort (2 ^ o) x))) := by
  unfold fft_impl
  rw [if_neg (valid_size_check o h1)]
  norm_num

lemma fft_impl_false_eq (o : Nat) (h1 : 1 ≤ o) (x : Nat → ℂ) :
    fft_impl false (2 ^ o) x =
      (0, fft_stages
          (Complex.exp (((2 * Real.pi * 1 / ((2 ^ o : ℕ) : ℝ) : ℝ) : ℂ) *
            Complex.I))
          (2 ^ o) 2 (bit_reverse_sort (2 ^ o) x)) := by
  unfold fft_impl
  rw [if_neg (valid_size_check o h1)]
  norm_num

lemma twiddle_pow_half (o : Nat) (h1 : 1 ≤ o) (sign : ℝ)
    (hs : sign = 1 ∨ sign = -1) :
    (Complex.exp (((2 * Real.pi * sign / ((2 ^ o : ℕ) : ℝ) : ℝ) : ℂ) *
      Complex.I)) ^ (2 ^ o / 2) = -1 := by
  have hhalf : 2 ^ o / 2 = 2 ^ (o - 1) := by
    have h := Nat.pow_div h1 (show 0 < 2 by norm_num)
    rw [pow_one] at h
    exact h
  rw [hhalf]
  rw [← Complex.exp_nat_mul]
  have hcast : ((2 ^ (o - 1) : ℕ) : ℂ) *
      ((((2 * Real.pi * sign / ((2 ^ o : ℕ) : ℝ)) : ℝ) : ℂ) * Complex.I) =
      ((Real.pi * sign : ℝ) : ℂ) * Complex.I := by
    have hr : ((2 ^ (o - 1) : ℕ) : ℝ) * (2 * Real.pi * sign / ((2 ^ o : ℕ) : ℝ)) =
        Real.pi * sign := by
      have hp : ((2 ^ o : ℕ) : ℝ) = 2 * ((2 ^ (o - 1) : ℕ) : ℝ) := by
        push_cast
        rw [← pow_succ']
        congr 1
        omega
      have hne : ((2 ^ (o - 1) : ℕ) : ℝ) ≠ 0 := by positivity
      rw [hp]
      field_simp
      ring
    calc ((2 ^ (o - 1) : ℕ) : ℂ) *
        ((((2 * Real.pi * sign / ((2 ^ o : ℕ) : ℝ)) : ℝ) : ℂ) * Complex.I)
        = ((((2 ^ (o - 1) : ℕ) : ℝ) *
            (2 * Real.pi * sign / ((2 ^ o : ℕ) : ℝ)) : ℝ) : ℂ) * Complex.I := by
          push_cast
          ring
      _ = ((Real.pi * sign : ℝ) : ℂ) * Complex.I := by rw [hr]
  rw [hcast]
  rcases hs with hs | hs
  · subst hs
    push_cast
    rw [mul_one]
    exact Complex.exp_pi_mul_I
  · subst hs
    push_cast
    have : (Real.pi : ℂ) * (-1) * Complex.I = -((Real.pi : ℂ) * Complex.I) := by
      ring
    rw [this, Complex.exp_neg, Complex.exp_pi_mul_I]
    norm_num

end detail

/-! ### The forward and inverse transforms compute the DFT -/

lemma fft_forward_sum (o : Nat) (h1 : 1 ≤ o) (h31 : o ≤ 31) (x : Nat → ℂ)
    (k : Nat) (hk : k < 2 ^ o) :
    (detail.fft_impl true (2 ^ o) x).2 k =
      (∑ j ∈ Finset.range (2 ^ o),
        x j *
          (Complex.exp (((2 * Real.pi * (-1) / ((2 ^ o : ℕ) : ℝ) : ℝ) : ℂ) *
            Complex.I)) ^ (j * k)) / ((2 ^ o : ℕ) : ℂ) := by
  rw [detail.fft_impl_true_eq o h1 x]
  show detail.scale_loop (2 ^ o) 0 _ k = _
  rw [detail.scale_loop_apply (2 ^ o) (2 ^ o - 0) 0 _ k rfl,
    if_pos ⟨Nat.zero_le k, hk⟩,
    detail.network_dft o h1 h31 _
      (detail.twiddle_pow_half o h1 (-1) (Or.inr rfl)) x k hk]

lemma fft_inverse_sum (o : Nat) (h1 : 1 ≤ o) (h31 : o ≤ 31) (x : Nat → ℂ)
    (k : Nat) (hk : k < 2 ^ o) :
    (detail.fft_impl false (2 ^ o) x).2 k =
      ∑ j ∈ Finset.range (2 ^ o),
        x j *
          (Complex.exp (((2 * Real.pi * 1 / ((2 ^ o : ℕ) : ℝ) : ℝ) : ℂ) *
            Complex.I)) ^ (j * k) := by
  rw [detail.fft_impl_false_eq o h1 x]
  show detail.fft_stages _ (2 ^ o) 2 _ k = _
  rw [detail.network_dft o h1 h31 _
    (detail.twiddle_pow_half o h1 1 (Or.inl rfl)) x k hk]

/-- C1: on a power-of-two length n = 2^o with 1 <= o <= 31 — the sizes
on which the int argument of __builtin_ffs inside bit_reverse_sort is
untruncated — the forward transform succeeds and every output element k
is the Discrete Fourier Transform value (1/n) * sum_j x j *
exp(-2 pi i j k / n), exactly in the idealised complex arithmetic.  The
claim does not extend to the full power-of-two size_t range: the final
conjunct exhibits that at n = 2^32 the truncation makes the stored
bit-reversal order wrap to 4294967295 instead of 32, after which the
source shifts past the word width and indexes outside the buffer. -/
theorem claim_C1_forward_scaled_dft (o : Nat) (h1 : 1 ≤ o) (h31 : o ≤ 31)
    (x : Nat → ℂ) (k : Nat) (hk : k < 2 ^ o) :
    ((fft (2 ^ o) x).1 = 0 ∧
    (fft (2 ^ o) x).2 k =
      (1 / ((2 ^ o : ℕ) : ℂ)) *
        ∑ j ∈ Finset.range (2 ^ o),
          x j *
            Complex.exp
              (((-(2 * Real.pi * (j * k) / ((2 ^ o : ℕ) : ℝ)) : ℝ) : ℂ) *
                Complex.I)) ∧
    (detail.ffs (2 ^ 32) + (2 ^ 32 - 1)) % 2 ^ 32 = 4294967295 := by
  refine ⟨⟨?_, ?_⟩, order_overflow_at_2_pow_32⟩
  · show (detail.fft_impl true (2 ^ o) x).1 = 0
    rw [detail.fft_impl_true_eq o h1 x]
  · show (detail.fft_impl true (2 ^ o) x).2 k = _
    rw [fft_forward_sum o h1 h31 x k hk]
    have hsum : ∑ j ∈ Finset.range (2 ^ o),
        x j *
          (Complex.exp (((2 * Real.pi * (-1) / ((2 ^ o : ℕ) : ℝ) : ℝ) : ℂ) *
            Complex.I)) ^ (j * k) =
        ∑ j ∈ Finset.range (2 ^ o),
          x j *
            Complex.exp
              (((-(2 * Real.pi * (j * k) / ((2 ^ o : ℕ) : ℝ)) : ℝ) : ℂ) *
                Complex.I) := by
      refine Finset.sum_congr rfl fun j hj => ?_
      congr 1
      rw [← Complex.exp_nat_mul]
      congr 1
      push_cast
      ring
    rw [hsum]
    ring

/-- Witness for C1 at o = 1, x = the all-ones input, k = 0. -/
theorem claim_C1_witness :
    1 ≤ 1 ∧ 1 ≤ 31 ∧ 0 < 2 ^ 1 ∧
      (((fft (2 ^ 1) (fun _ => 1)).1 = 0 ∧
       (fft (2 ^ 1) (fun _ => 1)).2 0 =
         (1 / ((2 ^ 1 : ℕ) : ℂ)) *
           ∑ j ∈ Finset.range (2 ^ 1),
             (1 : ℂ) *
               Complex.exp
                 (((-(2 * Real.pi * ((j : ℝ) * ((0 : ℕ) : ℝ)) /
                     ((2 ^ 1 : ℕ) : ℝ)) : ℝ) : ℂ) *
                   Complex.I)) ∧
       (detail.ffs (2 ^ 32) + (2 ^ 32 - 1)) % 2 ^ 32 = 4294967295) :=
  ⟨by norm_num, by norm_num, by norm_num,
    claim_C1_forward_scaled_dft 1 (by norm_num) (by norm_num) (fun _ => 1) 0
      (by norm_num)⟩

/-- C4: the two directions use opposite twiddle signs and asymmetric
scaling: the forward output is the w-Vandermonde sum with w =
exp(-i 2 pi / n) divided by n, the inverse output is the sum with w =
exp(+i 2 pi / n) with no scaling, and every stage of the loop uses the
per-stage twiddle step w_n^(n / grp_size).  The Vandermonde conjuncts
hold for n = 2^o with 1 <= o <= 31, the sizes on which __builtin_ffs's
int argument is untruncated; the final conjunct shows the truncation
wrapping the stored bit-reversal order to 4294967295 at n = 2^32, where
the source leaves the buffer instead of computing these sums. -/
theorem claim_C4_twiddle_signs_and_scaling (o : Nat) (h1 : 1 ≤ o)
    (h31 : o ≤ 31) (x : Nat → ℂ) (k : Nat) (hk : k < 2 ^ o) (w : ℂ)
    (gs : Nat) (d : Nat → ℂ) (hgs : 0 < gs) (hgs2 : gs ≤ 2 ^ o) :
    (detail.fft_impl true (2 ^ o) x).2 k =
      (∑ j ∈ Finset.range (2 ^ o),
        x j *
          (Complex.exp (((2 * Real.pi * (-1) / ((2 ^ o : ℕ) : ℝ) : ℝ) : ℂ) *
            Complex.I)) ^ (j * k)) / ((2 ^ o : ℕ) : ℂ) ∧
    (detail.fft_impl false (2 ^ o) x).2 k =
      ∑ j ∈ Finset.range (2 ^ o),
        x j *
          (Complex.exp (((2 * Real.pi * 1 / ((2 ^ o : ℕ) : ℝ) : ℝ) : ℂ) *
            Complex.I)) ^ (j * k) ∧
    detail.fft_stages w (2 ^ o) gs d =
      detail.fft_stages w (2 ^ o) (gs * 2)
        (detail.fft_groups (w ^ (2 ^ o / gs)) gs (2 ^ o) 0 d) ∧
    (detail.ffs (2 ^ 32) + (2 ^ 32 - 1)) % 2 ^ 32 = 4294967295 :=
  ⟨fft_forward_sum o h1 h31 x k hk, fft_inverse_sum o h1 h31 x k hk,
    detail.fft_stages_step w (2 ^ o) gs d ⟨hgs, hgs2⟩,
    order_overflow_at_2_pow_32⟩

/-- Witness for C4 at o = 1, x = all-ones, k = 0, w = 1, gs = 2,
d = all-zero. -/
theorem claim_C4_witness :
    1 ≤ 1 ∧ 1 ≤ 31 ∧ 0 < 2 ^ 1 ∧ 0 < 2 ∧ 2 ≤ 2 ^ 1 ∧
      ((detail.fft_impl true (2 ^ 1) (fun _ => 1)).2 0 =
        (∑ j ∈ Finset.range (2 ^ 1),
          (1 : ℂ) *
            (Complex.exp (((2 * Real.pi * (-1) / ((2 ^ 1 : ℕ) : ℝ) : ℝ) : ℂ) *
              Complex.I)) ^ (j * 0)) / ((2 ^ 1 : ℕ) : ℂ) ∧
       (detail.fft_impl false (2 ^ 1) (fun _ => 1)).2 0 =
        ∑ j ∈ Finset.range (2 ^ 1),
          (1 : ℂ) *
            (Complex.exp (((2 * Real.pi * 1 / ((2 ^ 1 : ℕ) : ℝ) : ℝ) : ℂ) *
              Complex.I)) ^ (j * 0) ∧
       detail.fft_stages 1 (2 ^ 1) 2 (fun _ => 0) =
        detail.fft_stages 1 (2 ^ 1) (2 * 2)
          (detail.fft_groups ((1 : ℂ) ^ (2 ^ 1 / 2)) 2 (2 ^ 1) 0 (fun _ => 0)) ∧
       (detail.ffs (2 ^ 32) + (2 ^ 32 - 1)) % 2 ^ 32 = 4294967295) :=
  ⟨by norm_num, by norm_num, by norm_num, by norm_num, by norm_num,
    claim_C4_twiddle_signs_and_scaling 1 (by norm_num) (by norm_num)
      (fun _ => 1) 0 (by norm_num) 1 2 (fun _ => 0) (by norm_num) (by norm_num)⟩

/-- C6: both directions map the all-zero sequence of length n = 2^o
with 1 <= o <= 31 — the sizes on which __builtin_ffs's int argument is
untruncated — to the all-zero sequence, with exact equality.  The final
conjunct shows why the proof stops there: at n = 2^32 the truncation
wraps the stored bit-reversal order to 4294967295 and the source
indexes outside the buffer even on zero data. -/
theorem claim_C6_zero_fixed_point (o : Nat) (h1 : 1 ≤ o) (h31 : o ≤ 31)
    (k : Nat) (hk : k < 2 ^ o) :
    ((fft (2 ^ o) (fun _ => 0)).2 k = 0 ∧
    (ifft (2 ^ o) (fun _ => 0)).2 k = 0) ∧
    (detail.ffs (2 ^ 32) + (2 ^ 32 - 1)) % 2 ^ 32 = 4294967295 := by
  refine ⟨⟨?_, ?_⟩, order_overflow_at_2_pow_32⟩
  · show (detail.fft_impl true (2 ^ o) (fun _ => 0)).2 k = 0
    rw [fft_forward_sum o h1 h31 _ k hk]
    simp
  · show (detail.fft_impl false (2 ^ o) (fun _ => 0)).2 k = 0
    rw [fft_inverse_sum o h1 h31 _ k hk]
    simp

/-- Witness for C6 at o = 2, k = 3. -/
theorem claim_C6_witness :
    1 ≤ 2 ∧ 2 ≤ 31 ∧ 3 < 2 ^ 2 ∧
      (((fft (2 ^ 2) (fun _ => 0)).2 3 = 0 ∧
       (ifft (2 ^ 2) (fun _ => 0)).2 3 = 0) ∧
       (detail.ffs (2 ^ 32) + (2 ^ 32 - 1)) % 2 ^ 32 = 4294967295) :=
  ⟨by norm_num, by norm_num, by norm_num,
    claim_C6_zero_fixed_point 2 (by norm_num) (by norm_num) 3 (by norm_num)⟩

/-! ### Orthogonality of the twiddle bases and the round trip -/

lemma inverse_base_eq (o : Nat) (h1 : 1 ≤ o) :
    Complex.exp (((2 * Real.pi * 1 / ((2 ^ o : ℕ) : ℝ) : ℝ) : ℂ) * Complex.I) =
      Complex.exp (2 * (Real.pi : ℂ) * Complex.I / ((2 ^ o : ℕ) : ℂ)) := by
  congr 1
  push_cast
  have hne : ((2 : ℂ)) ^ o ≠ 0 := pow_ne_zero o two_ne_zero
  field_simp

lemma forward_base_inv (o : Nat) (h1 : 1 ≤ o) :
    Complex.exp (((2 * Real.pi * (-1) / ((2 ^ o : ℕ) : ℝ) : ℝ) : ℂ) * Complex.I) =
      (Complex.exp (((2 * Real.pi * 1 / ((2 ^ o : ℕ) : ℝ) : ℝ) : ℂ) *
        Complex.I))⁻¹ := by
  rw [← Complex.exp_neg]
  congr 1
  push_cast
  ring

lemma inverse_base_primitive (o : Nat) (h1 : 1 ≤ o) :
    IsPrimitiveRoot
      (Complex.exp (((2 * Real.pi * 1 / ((2 ^ o : ℕ) : ℝ) : ℝ) : ℂ) * Complex.I))
      (2 ^ o) := by
  rw [inverse_base_eq o h1]
  exact Complex.isPrimitiveRoot_exp (2 ^ o) (Nat.pos_iff_ne_zero.mp (Nat.two_pow_pos o))

lemma twiddle_orthogonality (o : Nat) (h1 : 1 ≤ o) (j t : Nat)
    (hj : j < 2 ^ o) (ht : t < 2 ^ o) :
    ∑ c ∈ Finset.range (2 ^ o),
      (Complex.exp (((2 * Real.pi * (-1) / ((2 ^ o : ℕ) : ℝ) : ℝ) : ℂ) *
        Complex.I)) ^ (j * c) *
      (Complex.exp (((2 * Real.pi * 1 / ((2 ^ o : ℕ) : ℝ) : ℝ) : ℂ) *
        Complex.I)) ^ (c * t) =
      if j = t then ((2 ^ o : ℕ) : ℂ) else 0 := by
  set v : ℂ :=
    Complex.exp (((2 * Real.pi * 1 / ((2 ^ o : ℕ) : ℝ) : ℝ) : ℂ) * Complex.I)
    with hv
  set u : ℂ :=
    Complex.exp (((2 * Real.pi * (-1) / ((2 ^ o : ℕ) : ℝ) : ℝ) : ℂ) * Complex.I)
    with hu
  have huv : u = v⁻¹ := forward_base_inv o h1
  have hvne : v ≠ 0 := Complex.exp_ne_zero _
  have hprim : IsPrimitiveRoot v (2 ^ o) := inverse_base_primitive o h1
  have hvn : v ^ (2 ^ o) = 1 := hprim.pow_eq_one
  have hun : u ^ (2 ^ o) = 1 := by
    rw [huv, inv_pow, hvn, inv_one]
  have hterm : ∀ c, u ^ (j * c) * v ^ (c * t) = (u ^ j * v ^ t) ^ c := by
    intro c
    rw [mul_pow, ← pow_mul, ← pow_mul]
    congr 2
    ring
  rw [Finset.sum_congr rfl fun c _ => hterm c]
  by_cases hjt : j = t
  · subst hjt
    have hz : u ^ j * v ^ j = 1 := by
      rw [huv, inv_pow, inv_mul_cancel₀ (pow_ne_zero j hvne)]
    rw [if_pos rfl]
    rw [Finset.sum_congr rfl fun c _ => by rw [hz, one_pow]]
    rw [Finset.sum_const, Finset.card_range]
    simp
  · rw [if_neg hjt]
    have hzn : (u ^ j * v ^ t) ^ (2 ^ o) = 1 := by
      rw [mul_pow, ← pow_mul, ← pow_mul, mul_comm j (2 ^ o), mul_comm t (2 ^ o),
        pow_mul, pow_mul, hun, hvn, one_pow, one_pow, one_mul]
    have hzne : u ^ j * v ^ t ≠ 1 := by
      intro he
      apply hjt
      have hvv : v ^ t = v ^ j := by
        have hjne : u ^ j ≠ 0 := by
          rw [huv, inv_pow]
          exact inv_ne_zero (pow_ne_zero j hvne)
        have h2 : v ^ t = (u ^ j)⁻¹ := by
          calc v ^ t = (u ^ j)⁻¹ * (u ^ j * v ^ t) := by
                rw [← mul_assoc, inv_mul_cancel₀ hjne, one_mul]
            _ = (u ^ j)⁻¹ := by rw [he, mul_one]
        rw [h2, huv, inv_pow, inv_inv]
      have hres := hprim.pow_inj hj ht hvv.symm
      omega
    rw [geom_sum_eq hzne, hzn, sub_self, zero_div]

/-- C2: applying the forward and then the inverse transform returns the
original sequence exactly on every element, for every power-of-two
length n = 2^o with 1 <= o <= 31 — the sizes on which the int argument
of __builtin_ffs inside bit_reverse_sort is untruncated.  The final
conjunct exhibits the failure mode beyond that range: at n = 2^32 the
truncation wraps the stored bit-reversal order to 4294967295, the
source indexes outside the buffer, and no round trip happens. -/
theorem claim_C2_roundtrip (o : Nat) (h1 : 1 ≤ o) (h31 : o ≤ 31)
    (x : Nat → ℂ) (k : Nat) (hk : k < 2 ^ o) :
    (ifft (2 ^ o) (fft (2 ^ o) x).2).2 k = x k ∧
    (detail.ffs (2 ^ 32) + (2 ^ 32 - 1)) % 2 ^ 32 = 4294967295 := by
  refine ⟨?_, order_overflow_at_2_pow_32⟩
  show (detail.fft_impl false (2 ^ o) ((detail.fft_impl true (2 ^ o) x).2)).2 k
      = x k
  rw [fft_inverse_sum o h1 h31 _ k hk]
  set v : ℂ :=
    Complex.exp (((2 * Real.pi * 1 / ((2 ^ o : ℕ) : ℝ) : ℝ) : ℂ) * Complex.I)
    with hv
  set u : ℂ :=
    Complex.exp (((2 * Real.pi * (-1) / ((2 ^ o : ℕ) : ℝ) : ℝ) : ℂ) * Complex.I)
    with hu
  have hnne : ((2 ^ o : ℕ) : ℂ) ≠ 0 :=
    Nat.cast_ne_zero.mpr (Nat.pos_iff_ne_zero.mp (Nat.two_pow_pos o))
  have hstep1 : ∑ c ∈ Finset.range (2 ^ o),
      (detail.fft_impl true (2 ^ o) x).2 c * v ^ (c * k) =
      ∑ c ∈ Finset.range (2 ^ o),
        ((∑ j ∈ Finset.range (2 ^ o), x j * u ^ (j * c)) / ((2 ^ o : ℕ) : ℂ)) *
          v ^ (c * k) := by
    refine Finset.sum_congr rfl fun c hc => ?_
    rw [fft_forward_sum o h1 h31 x c (Finset.mem_range.mp hc)]
  rw [hstep1]
  have hstep2 : ∑ c ∈ Finset.range (2 ^ o),
      ((∑ j ∈ Finset.range (2 ^ o), x j * u ^ (j * c)) / ((2 ^ o : ℕ) : ℂ)) *
        v ^ (c * k) =
      ∑ c ∈ Finset.range (2 ^ o), ∑ j ∈ Finset.range (2 ^ o),
        x j / ((2 ^ o : ℕ) : ℂ) * (u ^ (j * c) * v ^ (c * k)) := by
    refine Finset.sum_congr rfl fun c hc => ?_
    rw [Finset.sum_div, Finset.sum_mul]
    refine Finset.sum_congr rfl fun j hj => ?_
    ring
  rw [hstep2, Finset.sum_comm]
  have hstep3 : ∑ j ∈ Finset.range (2 ^ o), ∑ c ∈ Finset.range (2 ^ o),
      x j / ((2 ^ o : ℕ) : ℂ) * (u ^ (j * c) * v ^ (c * k)) =
      ∑ j ∈ Finset.range (2 ^ o),
        if j = k then x j / ((2 ^ o : ℕ) : ℂ) * ((2 ^ o : ℕ) : ℂ) else 0 := by
    refine Finset.sum_congr rfl fun j hj => ?_
    rw [← Finset.mul_sum]
    rw [twiddle_orthogonality o h1 j k (Finset.mem_range.mp hj) hk]
    by_cases hjk : j = k
    · rw [if_pos hjk, if_pos hjk]
    · rw [if_neg hjk, if_neg hjk, mul_zero]
  rw [hstep3, Finset.sum_ite_eq' (Finset.range (2 ^ o)) k
    (fun j => x j / ((2 ^ o : ℕ) : ℂ) * ((2 ^ o : ℕ) : ℂ))]
  rw [if_pos (Finset.mem_range.mpr hk)]
  field_simp

/-- Witness for C2 at o = 1, x p = p, k = 1. -/
theorem claim_C2_witness :
    1 ≤ 1 ∧ 1 ≤ 31 ∧ 1 < 2 ^ 1 ∧
      ((ifft (2 ^ 1) (fft (2 ^ 1) (fun p => (p : ℂ))).2).2 1 = ((1 : ℕ) : ℂ) ∧
       (detail.ffs (2 ^ 32) + (2 ^ 32 - 1)) % 2 ^ 32 = 4294967295) :=
  ⟨by norm_num, by norm_num, by norm_num,
    claim_C2_roundtrip 1 (by norm_num) (by norm_num) (fun p => (p : ℂ)) 1
      (by norm_num)⟩

/-! ### The golden n = 4 test vector -/

/-- C5: on the length-4 input [1, 0, -1, 0] the forward transform
returns success and produces exactly [0, 1/2, 0, 1/2]. -/
theorem claim_C5_golden_case_four :
    (fft 4 (fun p => if p = 0 then 1 else if p = 2 then -1 else 0)).1 = 0 ∧
    (fft 4 (fun p => if p = 0 then 1 else if p = 2 then -1 else 0)).2 0 = 0 ∧
    (fft 4 (fun p => if p = 0 then 1 else if p = 2 then -1 else 0)).2 1 = 1 / 2 ∧
    (fft 4 (fun p => if p = 0 then 1 else if p = 2 then -1 else 0)).2 2 = 0 ∧
    (fft 4 (fun p => if p = 0 then 1 else if p = 2 then -1 else 0)).2 3 = 1 / 2 := by
  have h42 : (4 : ℕ) = 2 ^ 2 := by norm_num
  rw [h42]
  set x : Nat → ℂ := fun p => if p = 0 then 1 else if p = 2 then -1 else 0 with hx
  set w : ℂ :=
    Complex.exp (((2 * Real.pi * (-1) / ((2 ^ 2 : ℕ) : ℝ) : ℝ) : ℂ) * Complex.I)
    with hw
  have hw2 : w ^ 2 = -1 := by
    have h := detail.twiddle_pow_half 2 (by norm_num) (-1) (Or.inr rfl)
    rw [show ((2 : ℕ) ^ 2 / 2 : ℕ) = 2 from by norm_num] at h
    rw [hw]
    exact h
  have hw4 : w ^ 4 = 1 := by
    have h : w ^ 4 = (w ^ 2) ^ 2 := by ring
    rw [h, hw2]
    norm_num
  have hw6 : w ^ 6 = -1 := by
    have h : w ^ 6 = (w ^ 2) ^ 3 := by ring
    rw [h, hw2]
    norm_num
  have hxv0 : x 0 = 1 := by rw [hx]; norm_num
  have hxv1 : x 1 = 0 := by rw [hx]; norm_num
  have hxv2 : x 2 = -1 := by rw [hx]; norm_num
  have hxv3 : x 3 = 0 := by rw [hx]; norm_num
  have hsum : ∀ k, k < 4 →
      (fft (2 ^ 2) x).2 k = (0 + x 0 * w ^ (0 * k) + x 1 * w ^ (1 * k) +
        x 2 * w ^ (2 * k) + x 3 * w ^ (3 * k)) / ((2 ^ 2 : ℕ) : ℂ) := by
    intro k hk
    have hk2 : k < 2 ^ 2 := by omega
    show (detail.fft_impl true (2 ^ 2) x).2 k = _
    rw [fft_forward_sum 2 (by norm_num) (by norm_num) x k hk2]
    rw [← hw]
    rw [show ((2 : ℕ) ^ 2) = 4 from by norm_num]
    simp only [Finset.sum_range_succ, Finset.sum_range_zero]
  refine ⟨?_, ?_, ?_, ?_, ?_⟩
  · show (detail.fft_impl true (2 ^ 2) x).1 = 0
    rw [detail.fft_impl_true_eq 2 (by norm_num) x]
  · rw [hsum 0 (by norm_num), hxv0, hxv1, hxv2, hxv3]
    norm_num
  · rw [hsum 1 (by norm_num), hxv0, hxv1, hxv2, hxv3]
    rw [show ((1 : ℕ) * 1) = 1 from by norm_num, show ((2 : ℕ) * 1) = 2 from by
      norm_num]
    rw [hw2]
    norm_num
  · rw [hsum 2 (by norm_num), hxv0, hxv1, hxv2, hxv3]
    rw [show ((2 : ℕ) * 2) = 4 from by norm_num]
    rw [hw4]
    norm_num
  · rw [hsum 3 (by norm_num), hxv0, hxv1, hxv2, hxv3]
    rw [show ((2 : ℕ) * 3) = 6 from by norm_num]
    rw [hw6]
    norm_num

/-! ### Behaviour of the C variant (fft.c) on the claimed inputs -/

lemma cpp_validation_rejects (forward : Bool) (n : Nat) (x : Nat → ℂ)
    (h : n &&& (n - 1) ≠ 0 ∨ n < 2) :
    detail.fft_impl forward n x = (detail.EINVAL, x) := by
  unfold detail.fft_impl
  rw [if_pos h]

lemma do_fft_zero_none :
    ∀ fuel (data : Nat → ℂ) base inv stride,
      fftc.do_fft fuel data base 0 inv stride = none := by
  intro fuel
  induction fuel with
  | zero => intro data base inv stride; rfl
  | succ fuel ih =>
    intro data base inv stride
    show fftc.do_fft (fuel + 1) data base 0 inv stride = none
    unfold fftc.do_fft
    rw [if_neg (by norm_num), ih]

/-- C3: the C variant fft_helper validates only n & (n-1) == 0, so the
length n = 0 (not a power of two) passes validation; do_fft then
recurses on n/2 = 0 forever, so for every fuel the model returns none
(the C program overflows the stack) instead of the EINVAL the claim and
fft.c's own documentation require.  The C++ variant fft_impl, by
contrast, rejects n = 0 with EINVAL and an untouched buffer. -/
theorem claim_C3_zero_length_accepted_by_c (fuel : Nat)
    (inBuf outBuf x : Nat → ℂ) (aliased inverse forward : Bool) :
    detail.fft_impl forward 0 x = (detail.EINVAL, x) ∧
    fftc.fft_helper fuel false false inBuf outBuf aliased 0 inverse = none := by
  constructor
  · exact cpp_validation_rejects forward 0 x (Or.inr (by norm_num))
  · unfold fftc.fft_helper
    rw [if_neg (by norm_num)]
    simp only [do_fft_zero_none]

/-- C9: the out-of-place C call does not behave like the in-place call.
fft.c prepares a distinct out buffer with memcpy(out, in, n), which
copies n BYTES, i.e. only n/16 of the n complex elements.  At n = 2
with in = [1, 1] the in-place call fft(in, in, 2) returns 1 at index 0,
while the out-of-place call fft(in, out, 2) with out zero-initialised
copies zero elements, transforms the stale zeros and returns 0 at
index 0. -/
theorem claim_C9_out_of_place_memcpy_bug :
    (fftc.fft 2 false false (fun _ => 1) (fun _ => 1) true 2).map
      (fun r => r.2 0) = some 1 ∧
    (fftc.fft 2 false false (fun _ => 1) (fun _ => 0) false 2).map
      (fun r => r.2 0) = some 0 := by
  constructor
  · simp [fftc.fft, fftc.fft_helper, fftc.do_fft, fftc.combine, fftc.fhs_loop,
      fftc.memcpy_bytes, Function.update]
  · simp [fftc.fft, fftc.fft_helper, fftc.do_fft, fftc.combine, fftc.fhs_loop,
      fftc.memcpy_bytes, Function.update]
